import Mathlib

/-!
# Histogram resampling and range-overlap join selectivity

A shallow embedding of `src/backend/utils/adt/geo_selfuncs.c` and
`src/include/utils/proj_custom_header.h`.

Conventions of the embedding.

* `float8` values are exact rationals (`ℚ`); rounding of `float8` arithmetic is
  not modelled.  The one C `float` of the program (`dp`, line 318) is rounded to
  single precision (`float8_to_float4`), and the selectivity `selec`, the only
  value that can be non-finite, is a `Float8`: a rational, `+inf`, `-inf` or
  NaN.
* `int` values are unbounded integers (`ℤ`), so all values are taken to lie
  within the machine range; an assignment of a `float8` to an `int` truncates
  toward zero (`float8_to_int`).
* A C array is a `List`; its length is the number of allocated entries.  A read
  past the end of an array, a null dereference and an integer division by zero
  make the function return `none`.
* Memory that the C code reads before writing it (`palloc` does not clear) is
  an explicit argument of type `Uninit`.
-/

namespace GeoSelfuncs

/-! ## Data model (`proj_custom_header.h`) -/

/-- One histogram slot: `lower`, `upper`, `value`, all `float8`. -/
structure HistSlot where
  lower : ℚ
  upper : ℚ
  value : ℚ
  deriving DecidableEq

/-- The histogram: the slot array, `float8 range_count`, `int min`, `int max`.
The struct stores no slot count; `slots.length` is the size of the allocation. -/
structure CustomHist where
  slots : List HistSlot
  range_count : ℚ
  min : ℤ
  max : ℤ
  deriving DecidableEq

/-- The struct `SimpleRange`: three `int` fields `start`, `end`, `length`
(`end` is written `end_`). -/
structure SimpleRange where
  start : ℤ
  end_ : ℤ
  length : ℤ
  deriving DecidableEq

/-- Contents of memory that `construct_hist` reads before writing it: the
locals `hist_min`, `hist_max` as declared, and the fields `lower`, `upper` of
the freshly allocated `slots[0]`. -/
structure Uninit where
  hist_min : ℚ
  hist_max : ℚ
  slot_lower : ℚ
  slot_upper : ℚ
  deriving DecidableEq

/-- Conversion of a `float8` to an `int` in C: truncation toward zero. -/
def float8_to_int (x : ℚ) : ℤ :=
  if 0 ≤ x then ⌊x⌋ else ⌈x⌉

/-- A `float8` value that may be non-finite: a real number, `+inf`, `-inf` or
NaN. -/
inductive Float8 where
  | finite (q : ℚ)
  | pos_inf
  | neg_inf
  | nan
  deriving DecidableEq

/-- Two to the power `e`. -/
def pow2 (e : ℤ) : ℚ :=
  if 0 ≤ e then ((2 ^ e.toNat : ℕ) : ℚ) else 1 / ((2 ^ (-e).toNat : ℕ) : ℚ)

/-- Rounding of a non-negative rational to the nearest integer, ties to the
even one. -/
def round_half_even (r : ℚ) : ℤ :=
  if r - (⌊r⌋ : ℚ) < 1 / 2 then ⌊r⌋
  else if 1 / 2 < r - (⌊r⌋ : ℚ) then ⌊r⌋ + 1
  else if ⌊r⌋ % 2 = 0 then ⌊r⌋ else ⌊r⌋ + 1

/-- The integer part of the base-two logarithm of `n`, for `n ≤ fuel`. -/
def log2_floor : ℕ → ℕ → ℕ
  | 0, _ => 0
  | fuel + 1, n => if n ≤ 1 then 0 else log2_floor fuel (n / 2) + 1

/-- The largest finite single-precision value, `(2^24 - 1) * 2^104`. -/
def FLT_MAX : ℚ := (((2 ^ 24 - 1) * 2 ^ 104 : ℕ) : ℚ)

/-- Conversion of a `float8` to a C `float`: the nearest single-precision value
(24-bit significand, exponent at least `-126`, ties to even), and an infinity
when that value exceeds `FLT_MAX`. -/
def float8_to_float4 (x : ℚ) : Float8 :=
  if x = 0 then .finite 0
  else
    let a : ℚ := if x < 0 then -x else x
    let e0 : ℤ := (log2_floor a.num.natAbs a.num.natAbs : ℤ) - (log2_floor a.den a.den : ℤ)
    let e : ℤ := if pow2 e0 ≤ a then e0 else e0 - 1
    let q : ℚ := pow2 (max e (-126) - 23)
    let r : ℚ := (round_half_even (a / q) : ℚ) * q
    if FLT_MAX < r then (if x < 0 then .neg_inf else .pos_inf)
    else .finite (if x < 0 then -r else r)

/-! ## Constant estimators (lines 53-105) -/

/-- The argument list of a selectivity function (`PG_FUNCTION_ARGS`); the
constant estimators never read it. -/
structure FunctionCallInfo where
  args : List ℤ
  deriving DecidableEq

/-- The function `areasel`: `PG_RETURN_FLOAT8(0.005)`. -/
def areasel (_fcinfo : FunctionCallInfo) : ℚ := 5 / 1000

/-- The function `areajoinsel`: `PG_RETURN_FLOAT8(0.005)`. -/
def areajoinsel (_fcinfo : FunctionCallInfo) : ℚ := 5 / 1000

/-- The function `positionsel`: `PG_RETURN_FLOAT8(0.1)`. -/
def positionsel (_fcinfo : FunctionCallInfo) : ℚ := 1 / 10

/-- The function `positionjoinsel`: `PG_RETURN_FLOAT8(0.1)`. -/
def positionjoinsel (_fcinfo : FunctionCallInfo) : ℚ := 1 / 10

/-- The function `contsel`: `PG_RETURN_FLOAT8(0.001)`. -/
def contsel (_fcinfo : FunctionCallInfo) : ℚ := 1 / 1000

/-- The function `contjoinsel`: `PG_RETURN_FLOAT8(0.001)`. -/
def contjoinsel (_fcinfo : FunctionCallInfo) : ℚ := 1 / 1000

/-! ## `construct_hist` (lines 107-140) -/

/-- Loop state of `construct_hist`: the slots written so far and the locals
`hist_min`, `hist_max`, `range_count`. -/
structure BuildState where
  slots : List HistSlot
  hist_min : ℚ
  hist_max : ℚ
  range_count : ℚ
  deriving DecidableEq

/-- One iteration of the loop of `construct_hist` (lines 116-130) at index `i`.
For `i = 0` the extrema are first loaded from `slots[0]`, which has not been
written yet (lines 117-120). -/
def construct_hist_step (u : Uninit) (hist_bins slots_values : List ℚ)
    (st : BuildState) (i : ℕ) : Option BuildState := do
  let hist_min := if i = 0 then u.slot_lower else st.hist_min
  let hist_max := if i = 0 then u.slot_upper else st.hist_max
  let lower ← hist_bins[i]?
  let upper ← hist_bins[i + 1]?
  let value ← slots_values[i]?
  let hist_min := if lower < hist_min then lower else hist_min
  let hist_max := if upper > hist_max then upper else hist_max
  some ⟨st.slots ++ [⟨lower, upper, value⟩], hist_min, hist_max, st.range_count + value⟩

/-- The function `construct_hist(hist_bins, slots_values, slots_count)`. -/
def construct_hist (u : Uninit) (hist_bins slots_values : List ℚ) (slots_count : ℕ) :
    Option CustomHist := do
  let st ← (List.range slots_count).foldlM (construct_hist_step u hist_bins slots_values)
    ⟨[], u.hist_min, u.hist_max, 0⟩
  some ⟨st.slots, st.range_count, float8_to_int st.hist_min, float8_to_int st.hist_max⟩

/-! ## Overlap fraction -/

/-- Modelled from the spec: the body of `accumulate_range_in_slot_percentage`
is not among the sources (only its prototype is).  Spec section 4.2,
`overlap_fraction(target_lower, target_upper, source_lower, source_upper)`: the
fraction of the source span covered by the target span; `0` when the source
span has zero length; otherwise
`(min(target_upper, source_upper) - max(target_lower, source_lower)) /
(source_upper - source_lower)` clamped to `[0,1]`. -/
def overlap_fraction (target_lower target_upper source_lower source_upper : ℚ) : ℚ :=
  if source_upper - source_lower = 0 then 0
  else max 0 (min 1 ((min target_upper source_upper - max target_lower source_lower) /
    (source_upper - source_lower)))

/-- Modelled from the spec: `accumulate_range_in_slot_percentage(s_min, s_max,
range)` has only its prototype among the sources; it is the spec's overlap
fraction of the target span `[s_min, s_max]` and the source span
`[range.start, range.end]`. -/
def accumulate_range_in_slot_percentage (s_min s_max : ℚ) (range : SimpleRange) : ℚ :=
  overlap_fraction s_min s_max range.start range.end_

/-! ## `normalize_hist` (lines 143-176) -/

/-- The first loop of `normalize_hist` (lines 150-154): entry `i` of `hist_bins`
is `i * slot_length + new_min`, and entry `slots_count` is `new_max`. -/
def normalize_hist_bins (new_min new_max : ℤ) (slots_count : ℕ) (slot_length : ℚ) : List ℚ :=
  (List.range (slots_count + 1)).map fun i =>
    if i = slots_count then (new_max : ℚ) else (i : ℚ) * slot_length + (new_min : ℚ)

/-- The inner loop of `normalize_hist` (lines 163-172) for one target slot
`[slot_min, slot_max]`: it runs over `j < slots_count`, reads `hist->slots[j]`,
stores its bounds in the `int` fields of a `SimpleRange`, and accumulates
`coverage * hist->slots[j].value` starting from `0`. -/
def normalize_hist_slot_value (hist : CustomHist) (slots_count : ℕ) (slot_min slot_max : ℚ) :
    Option ℚ :=
  (List.range slots_count).foldlM (fun acc j => do
    let s ← hist.slots[j]?
    let start := float8_to_int s.lower
    let end_ := float8_to_int s.upper
    let curr_range : SimpleRange := ⟨start, end_, end_ - start⟩
    let coverage := accumulate_range_in_slot_percentage slot_min slot_max curr_range
    some (acc + coverage * s.value)) 0

/-- The function `normalize_hist(hist, new_min, new_max, slots_count)`.
`slot_length` is the quotient of two `int`s (line 147), so it is C integer
division: truncating, and undefined for `slots_count = 0`.  The array
`hist_bins` is modelled with the `slots_count + 1` entries the first loop
writes (line 144 requests `8 * slots_count + 1` bytes, which the allocator
rounds up to a multiple of 8). -/
def normalize_hist (u : Uninit) (hist : CustomHist) (new_min new_max : ℤ) (slots_count : ℕ) :
    Option CustomHist :=
  if slots_count = 0 then none
  else do
    let slot_length : ℚ := (((new_max - new_min).tdiv (slots_count : ℤ) : ℤ) : ℚ)
    let hist_bins := normalize_hist_bins new_min new_max slots_count slot_length
    let slots_values ← (List.range slots_count).mapM fun i => do
      let slot_min ← hist_bins[i]?
      let slot_max ← hist_bins[i + 1]?
      normalize_hist_slot_value hist slots_count slot_min slot_max
    construct_hist u hist_bins slots_values slots_count

/-! ## `vectors_dot_product` (lines 178-184) -/

/-- The function `vectors_dot_product(slots_1, slots_2, slots_count)`. -/
def vectors_dot_product (slots_1 slots_2 : List HistSlot) (slots_count : ℕ) : Option ℚ :=
  (List.range slots_count).foldlM (fun total i => do
    let a ← slots_1[i]?
    let b ← slots_2[i]?
    some (total + a.value * b.value)) 0

/-! ## `rangeoverlapsjoinsel` (lines 190-335) -/

/-- Modelled from the spec: the macro `CLAMP_PROBABILITY` is not among the
sources.  Spec section 4.4: the result is "clamped to a minimum/maximum valid
probability range ... (never negative, never exceeding 1, with a lower
floor ...)".  The value of the floor is the parameter `floor`. -/
def CLAMP_PROBABILITY (floor p : ℚ) : ℚ :=
  if p < floor then floor else if p > 1 then 1 else p

/-- Modelled from the spec: the macro `CLAMP_PROBABILITY`, not among the
sources, on a `selec` that may be non-finite.  The two bounds of spec section
4.4 are applied by comparison: `+inf` exceeds `1`, `-inf` is below the floor,
and both comparisons are false on NaN, which is left as it is. -/
def CLAMP_PROBABILITY_float8 (floor : ℚ) : Float8 → Float8
  | .finite q => .finite (CLAMP_PROBABILITY floor q)
  | .pos_inf => .finite 1
  | .neg_inf => .finite floor
  | .nan => .nan

/-- Line 319, `selec = dp / (hist1->range_count * hist2->range_count)`, a
`float8` division of the single-precision `dp`.  A zero product is `-0` when
the other total is negative (the totals are sums started at `+0`); a non-zero
`dp` over a zero product is an infinity and `0 / 0` is NaN. -/
def float8_div_totals (dp : Float8) (range_count1 range_count2 : ℚ) : Float8 :=
  let d : ℚ := range_count1 * range_count2
  let d_negative : Prop := d < 0 ∨ (d = 0 ∧ (range_count1 < 0 ∨ range_count2 < 0))
  match dp with
  | .finite x =>
    if d ≠ 0 then .finite (x / d)
    else if x = 0 then .nan
    else if (x < 0 ↔ d_negative) then .pos_inf else .neg_inf
  | .pos_inf => if d_negative then .neg_inf else .pos_inf
  | .neg_inf => if d_negative then .pos_inf else .neg_inf
  | .nan => .nan

/-- A statistics tuple as seen through `get_attstatsslot`: for each of the two
statistic kinds, `none` when the call returns `false`, else the `values` array
read through `DatumGetFloat8`. -/
structure StatsTuple where
  bins_histogram : Option (List ℚ)
  bins_values_histogram : Option (List ℚ)
  deriving DecidableEq

/-- What the function uses of one `VariableStatData`: the result of
`statistic_proc_security_check` on it, and its `statsTuple` (`none` when
`HeapTupleIsValid` is false). -/
structure VariableStatData where
  security_check : Bool
  statsTuple : Option StatsTuple
  deriving DecidableEq

/-- Uninitialised memory read by the four calls of `construct_hist` made by one
call of `rangeoverlapsjoinsel`. -/
structure Memory where
  hist1 : Uninit
  hist2 : Uninit
  norm_1 : Uninit
  norm_2 : Uninit
  deriving DecidableEq

/-- Lines 260-263, 297-300 and 309-334 of `rangeoverlapsjoinsel`: from the four
fetched slots (`values` arrays of `sslot11`, `sslot12`, `sslot21`, `sslot22`)
to the clamped selectivity.  The second histogram is constructed with
`slots_count1` (line 310) and resampled with `slots_count2` (line 316); the dot
product is stored in the `float` variable `dp` (line 318). -/
def rangeoverlapsjoinsel_score (floor : ℚ) (mem : Memory)
    (sslot11 sslot12 sslot21 sslot22 : List ℚ) : Option Float8 := do
  let slots_count1 := sslot12.length
  let slots_count2 := sslot22.length
  let hist1 ← construct_hist mem.hist1 sslot11 sslot12 slots_count1
  let hist2 ← construct_hist mem.hist2 sslot21 sslot22 slots_count1
  let common_min := max hist1.min hist2.min
  let common_max := min hist1.max hist2.max
  let norm_1 ← normalize_hist mem.norm_1 hist1 common_min common_max slots_count1
  let norm_2 ← normalize_hist mem.norm_2 hist2 common_min common_max slots_count2
  let total ← vectors_dot_product norm_1.slots norm_2.slots slots_count1
  let dp := float8_to_float4 total
  let selec := float8_div_totals dp hist1.range_count hist2.range_count
  some (CLAMP_PROBABILITY_float8 floor selec)

/-- The function `rangeoverlapsjoinsel`.  `selec` starts as `0.005` and is
returned as is on the early exits.  A slot that is not fetched stays zeroed
(`nvalues = 0`).  `fetch1` is lines 240-259 and `fetch2` lines 277-296, with
`none` for an early `PG_RETURN_FLOAT8(selec)`; the second fetch is guarded by
`vardata1.statsTuple` (line 277) and then dereferences `vardata2.statsTuple`
(line 279), which is undefined when that one is null. -/
def rangeoverlapsjoinsel (floor : ℚ) (mem : Memory) (vardata1 vardata2 : VariableStatData) :
    Option Float8 :=
  let selec : Float8 := .finite (5 / 1000)
  if vardata1.security_check = false then some selec
  else
    let fetch1 : Option (List ℚ × List ℚ) :=
      match vardata1.statsTuple with
      | none => some ([], [])
      | some t =>
        match t.bins_histogram, t.bins_values_histogram with
        | some b, some v => some (b, v)
        | _, _ => none
    match fetch1 with
    | none => some selec
    | some (sslot11, sslot12) =>
      if vardata2.security_check = false then some selec
      else
        match vardata1.statsTuple with
        | none => rangeoverlapsjoinsel_score floor mem sslot11 sslot12 [] []
        | some _ =>
          match vardata2.statsTuple with
          | none => none
          | some t =>
            let fetch2 : Option (List ℚ × List ℚ) :=
              match t.bins_histogram, t.bins_values_histogram with
              | some b, some v => some (b, v)
              | _, _ => none
            match fetch2 with
            | none => some selec
            | some (sslot21, sslot22) =>
              rangeoverlapsjoinsel_score floor mem sslot11 sslot12 sslot21 sslot22

/-- Lines 309-310 of `rangeoverlapsjoinsel`: the two histograms `hist1` and
`hist2`, both constructed with `slots_count1`. -/
def rangeoverlapsjoinsel_hists (mem : Memory) (sslot11 sslot12 sslot21 sslot22 : List ℚ) :
    Option (CustomHist × CustomHist) := do
  let slots_count1 := sslot12.length
  let hist1 ← construct_hist mem.hist1 sslot11 sslot12 slots_count1
  let hist2 ← construct_hist mem.hist2 sslot21 sslot22 slots_count1
  some (hist1, hist2)

/-- Lines 309-316 of `rangeoverlapsjoinsel`: the two resampled histograms
`norm_1` (target count `slots_count1`) and `norm_2` (target count
`slots_count2`) on the common grid. -/
def rangeoverlapsjoinsel_norms (mem : Memory) (sslot11 sslot12 sslot21 sslot22 : List ℚ) :
    Option (CustomHist × CustomHist) := do
  let slots_count1 := sslot12.length
  let slots_count2 := sslot22.length
  let (hist1, hist2) ← rangeoverlapsjoinsel_hists mem sslot11 sslot12 sslot21 sslot22
  let common_min := max hist1.min hist2.min
  let common_max := min hist1.max hist2.max
  let norm_1 ← normalize_hist mem.norm_1 hist1 common_min common_max slots_count1
  let norm_2 ← normalize_hist mem.norm_2 hist2 common_min common_max slots_count2
  some (norm_1, norm_2)

/-- Lines 309-319 of `rangeoverlapsjoinsel`: the value of `selec` before
`CLAMP_PROBABILITY`, `dp / (hist1->range_count * hist2->range_count)` with the
single-precision `dp` of line 318. -/
def rangeoverlapsjoinsel_selec (mem : Memory) (sslot11 sslot12 sslot21 sslot22 : List ℚ) :
    Option Float8 := do
  let slots_count1 := sslot12.length
  let (hist1, hist2) ← rangeoverlapsjoinsel_hists mem sslot11 sslot12 sslot21 sslot22
  let (norm_1, norm_2) ← rangeoverlapsjoinsel_norms mem sslot11 sslot12 sslot21 sslot22
  let total ← vectors_dot_product norm_1.slots norm_2.slots slots_count1
  let dp := float8_to_float4 total
  some (float8_div_totals dp hist1.range_count hist2.range_count)

/-! ## Closed forms used in the proofs -/

/-- The slots written by the first `n` iterations of `construct_hist`. -/
def hist_slots_of (hist_bins slots_values : List ℚ) (n : ℕ) : List HistSlot :=
  (List.range n).map fun i =>
    ⟨hist_bins.getD i 0, hist_bins.getD (i + 1) 0, slots_values.getD i 0⟩

/-- The local `hist_min` of `construct_hist` after `n` iterations. -/
def hist_min_of (u : Uninit) (hist_bins : List ℚ) : ℕ → ℚ
  | 0 => u.hist_min
  | n + 1 =>
    let base := if n = 0 then u.slot_lower else hist_min_of u hist_bins n
    if hist_bins.getD n 0 < base then hist_bins.getD n 0 else base

/-- The local `hist_max` of `construct_hist` after `n` iterations. -/
def hist_max_of (u : Uninit) (hist_bins : List ℚ) : ℕ → ℚ
  | 0 => u.hist_max
  | n + 1 =>
    let base := if n = 0 then u.slot_upper else hist_max_of u hist_bins n
    if hist_bins.getD (n + 1) 0 > base then hist_bins.getD (n + 1) 0 else base

/-- The coverage computed by one pass of the inner loop of `normalize_hist` for
the source slot `s`, whose bounds go through the `int` fields of `SimpleRange`. -/
def coverage_of (slot_min slot_max : ℚ) (s : HistSlot) : ℚ :=
  accumulate_range_in_slot_percentage slot_min slot_max
    ⟨float8_to_int s.lower, float8_to_int s.upper,
      float8_to_int s.upper - float8_to_int s.lower⟩

/-- The value accumulated by the inner loop of `normalize_hist` over the first
`n` source slots. -/
def slot_value_of (slots : List HistSlot) (n : ℕ) (slot_min slot_max : ℚ) : ℚ :=
  ((slots.take n).map fun s => coverage_of slot_min slot_max s * s.value).sum

/-- The `slot_length` of `normalize_hist`: the truncated integer quotient. -/
def slot_length_of (new_min new_max : ℤ) (slots_count : ℕ) : ℚ :=
  (((new_max - new_min).tdiv (slots_count : ℤ) : ℤ) : ℚ)

/-- The array `hist_bins` of `normalize_hist`. -/
def grid_of (new_min new_max : ℤ) (slots_count : ℕ) : List ℚ :=
  normalize_hist_bins new_min new_max slots_count (slot_length_of new_min new_max slots_count)

/-- The array `slots_values` of `normalize_hist` after its second loop. -/
def slots_values_of (hist : CustomHist) (new_min new_max : ℤ) (slots_count : ℕ) : List ℚ :=
  (List.range slots_count).map fun i =>
    slot_value_of hist.slots slots_count ((grid_of new_min new_max slots_count).getD i 0)
      ((grid_of new_min new_max slots_count).getD (i + 1) 0)

/-- The sum accumulated by `vectors_dot_product` over the first `n` slots. -/
def dot_of (slots_1 slots_2 : List HistSlot) (n : ℕ) : ℚ :=
  ((List.zipWith (fun a b : HistSlot => a.value * b.value) slots_1 slots_2).take n).sum

/-- The histogram invariant of the data model (spec section 3): the total
mass is non-negative, `min ≤ max`, and every slot's span lies within
`[min, max]`. -/
def hist_invariant (h : CustomHist) : Prop :=
  0 ≤ h.range_count ∧ h.min ≤ h.max ∧
    ∀ s ∈ h.slots, (h.min : ℚ) ≤ s.lower ∧ s.upper ≤ (h.max : ℚ)

instance hist_invariant_decidable (h : CustomHist) : Decidable (hist_invariant h) := by
  unfold hist_invariant
  infer_instance

/-! ## Loops -/

theorem foldlM_range_succ {σ : Type} (f : σ → ℕ → Option σ) (init : σ) (n : ℕ) :
    (List.range (n + 1)).foldlM f init = ((List.range n).foldlM f init).bind fun s => f s n := by
  simp [List.range_succ, List.foldlM_append]

theorem getElem?_eq_some_getD (l : List ℚ) (i : ℕ) (h : i < l.length) :
    l[i]? = some (l.getD i 0) := by
  simp [List.getD, List.getElem?_eq_getElem h]

theorem hist_slots_of_succ (hist_bins slots_values : List ℚ) (n : ℕ) :
    hist_slots_of hist_bins slots_values (n + 1) = hist_slots_of hist_bins slots_values n ++
      [⟨hist_bins.getD n 0, hist_bins.getD (n + 1) 0, slots_values.getD n 0⟩] := by
  simp [hist_slots_of, List.range_succ]

theorem hist_min_of_succ (u : Uninit) (hist_bins : List ℚ) (n : ℕ) :
    hist_min_of u hist_bins (n + 1) =
      if hist_bins.getD n 0 < (if n = 0 then u.slot_lower else hist_min_of u hist_bins n)
      then hist_bins.getD n 0
      else (if n = 0 then u.slot_lower else hist_min_of u hist_bins n) := rfl

theorem hist_max_of_succ (u : Uninit) (hist_bins : List ℚ) (n : ℕ) :
    hist_max_of u hist_bins (n + 1) =
      if hist_bins.getD (n + 1) 0 > (if n = 0 then u.slot_upper else hist_max_of u hist_bins n)
      then hist_bins.getD (n + 1) 0
      else (if n = 0 then u.slot_upper else hist_max_of u hist_bins n) := rfl

theorem construct_hist_loop (u : Uninit) (hist_bins slots_values : List ℚ) :
    ∀ n : ℕ, n + 1 ≤ hist_bins.length → n ≤ slots_values.length →
      (List.range n).foldlM (construct_hist_step u hist_bins slots_values)
          ⟨[], u.hist_min, u.hist_max, 0⟩ =
        some ⟨hist_slots_of hist_bins slots_values n, hist_min_of u hist_bins n,
          hist_max_of u hist_bins n, (slots_values.take n).sum⟩ := by
  intro n
  induction n with
  | zero => intro _ _; rfl
  | succ k ih =>
    intro hb hv
    rw [foldlM_range_succ, ih (by omega) (by omega)]
    have h1 : hist_bins[k]? = some (hist_bins.getD k 0) := getElem?_eq_some_getD _ _ (by omega)
    have h2 : hist_bins[k + 1]? = some (hist_bins.getD (k + 1) 0) :=
      getElem?_eq_some_getD _ _ (by omega)
    have h3 : slots_values[k]? = some (slots_values.getD k 0) :=
      getElem?_eq_some_getD _ _ (by omega)
    have h4 : (slots_values.take (k + 1)).sum = (slots_values.take k).sum + slots_values.getD k 0 := by
      rw [List.sum_take_succ _ _ (by omega)]
      simp [List.getD, List.getElem?_eq_getElem (show k < slots_values.length by omega)]
    simp only [construct_hist_step, h1, h2, h3, h4, hist_slots_of_succ, hist_min_of_succ,
      hist_max_of_succ, Option.bind_eq_bind, Option.some_bind, Option.bind_some]

theorem construct_hist_eq (u : Uninit) (hist_bins slots_values : List ℚ) (n : ℕ)
    (hb : n + 1 ≤ hist_bins.length) (hv : n ≤ slots_values.length) :
    construct_hist u hist_bins slots_values n =
      some ⟨hist_slots_of hist_bins slots_values n, (slots_values.take n).sum,
        float8_to_int (hist_min_of u hist_bins n), float8_to_int (hist_max_of u hist_bins n)⟩ := by
  simp [construct_hist, construct_hist_loop u hist_bins slots_values n hb hv]

theorem mapM_eq_some_map {α β : Type} (f : α → Option β) (g : α → β) (l : List α)
    (h : ∀ x ∈ l, f x = some (g x)) : l.mapM f = some (l.map g) := by
  induction l with
  | nil => rfl
  | cons a t ih =>
    have ha := h a (by simp)
    have ht := ih (fun x hx => h x (by simp [hx]))
    rw [List.mapM_cons, ha, ht]
    rfl

theorem slot_value_of_succ (slots : List HistSlot) (n : ℕ) (slot_min slot_max : ℚ) (s : HistSlot)
    (hs : slots[n]? = some s) :
    slot_value_of slots (n + 1) slot_min slot_max =
      slot_value_of slots n slot_min slot_max + coverage_of slot_min slot_max s * s.value := by
  have hn : n < slots.length := by
    rcases List.getElem?_eq_some.1 hs with ⟨h, _⟩
    exact h
  have he : slots[n] = s := by
    rcases List.getElem?_eq_some.1 hs with ⟨_, h⟩
    exact h
  unfold slot_value_of
  rw [List.map_take, List.map_take, List.sum_take_succ _ _ (by simpa using hn)]
  simp [he]

theorem normalize_hist_slot_value_eq (hist : CustomHist) (slot_min slot_max : ℚ) :
    ∀ n : ℕ, n ≤ hist.slots.length →
      (List.range n).foldlM (fun acc j => do
        let s ← hist.slots[j]?
        let start := float8_to_int s.lower
        let end_ := float8_to_int s.upper
        let curr_range : SimpleRange := ⟨start, end_, end_ - start⟩
        let coverage := accumulate_range_in_slot_percentage slot_min slot_max curr_range
        some (acc + coverage * s.value)) (0 : ℚ) =
      some (slot_value_of hist.slots n slot_min slot_max) := by
  intro n
  induction n with
  | zero => intro _; simp [slot_value_of]
  | succ k ih =>
    intro hk
    rw [foldlM_range_succ, ih (by omega)]
    have hs : hist.slots[k]? = some hist.slots[k] := List.getElem?_eq_getElem (by omega)
    rw [slot_value_of_succ _ _ _ _ _ hs]
    simp [hs, coverage_of]

theorem grid_of_length (new_min new_max : ℤ) (K : ℕ) :
    (grid_of new_min new_max K).length = K + 1 := by
  simp [grid_of, normalize_hist_bins]

theorem getElem?_grid_of (new_min new_max : ℤ) (K i : ℕ) (hi : i < K + 1) :
    (grid_of new_min new_max K)[i]? = some ((grid_of new_min new_max K).getD i 0) :=
  getElem?_eq_some_getD _ _ (by rw [grid_of_length]; exact hi)

theorem normalize_hist_eq (u : Uninit) (hist : CustomHist) (new_min new_max : ℤ) (K : ℕ)
    (hK : 1 ≤ K) (hlen : K ≤ hist.slots.length) :
    normalize_hist u hist new_min new_max K =
      construct_hist u (grid_of new_min new_max K) (slots_values_of hist new_min new_max K) K := by
  have hmap : (List.range K).mapM (fun i => do
        let slot_min ← (grid_of new_min new_max K)[i]?
        let slot_max ← (grid_of new_min new_max K)[i + 1]?
        normalize_hist_slot_value hist K slot_min slot_max) =
      some (slots_values_of hist new_min new_max K) := by
    apply mapM_eq_some_map
    intro i hi
    have hi2 : i < K := List.mem_range.1 hi
    rw [getElem?_grid_of _ _ _ _ (by omega), getElem?_grid_of _ _ _ _ (by omega)]
    exact normalize_hist_slot_value_eq hist _ _ K hlen
  have hK0 : K ≠ 0 := by omega
  unfold grid_of slot_length_of at hmap
  simp only [Option.bind_eq_bind] at hmap
  simp only [normalize_hist, if_neg hK0, Option.bind_eq_bind, hmap, Option.some_bind]
  rfl

theorem float8_to_int_mono {x y : ℚ} (h : x ≤ y) : float8_to_int x ≤ float8_to_int y := by
  unfold float8_to_int
  by_cases hx : 0 ≤ x
  · have hy : 0 ≤ y := le_trans hx h
    rw [if_pos hx, if_pos hy]
    exact Int.floor_mono h
  · rw [if_neg hx]
    by_cases hy : 0 ≤ y
    · rw [if_pos hy]
      have h1 : ⌈x⌉ ≤ 0 := Int.ceil_le.2 (by push_cast; linarith)
      have h2 : (0 : ℤ) ≤ ⌊y⌋ := Int.le_floor.2 (by push_cast; linarith)
      omega
    · rw [if_neg hy]
      exact Int.ceil_mono h

theorem tdiv_of_nonpos (d : ℤ) (K : ℕ) (hK : 1 ≤ K) (hd : d ≤ 0) :
    d.tdiv (K : ℤ) ≤ 0 ∧ d ≤ (K : ℤ) * d.tdiv (K : ℤ) := by
  have hKz : (0 : ℤ) ≤ (K : ℤ) := Int.ofNat_nonneg K
  have hK0 : (K : ℤ) ≠ 0 := by omega
  have e : d.tdiv (K : ℤ) = -((-d) / (K : ℤ)) := by
    have h1 := Int.neg_tdiv (-d) (K : ℤ)
    rw [neg_neg] at h1
    rw [h1, Int.tdiv_eq_ediv (by omega) hKz]
  have h2 : 0 ≤ (-d) / (K : ℤ) := Int.ediv_nonneg (by omega) hKz
  have h3 : (K : ℤ) * ((-d) / (K : ℤ)) ≤ -d := Int.mul_ediv_self_le hK0
  rw [e]
  constructor
  · omega
  · rw [mul_neg]
    omega

theorem slot_length_of_inverted (new_min new_max : ℤ) (K : ℕ) (hK : 1 ≤ K)
    (h : new_max ≤ new_min) :
    slot_length_of new_min new_max K ≤ 0 ∧
      (new_max : ℚ) - new_min ≤ (K : ℚ) * slot_length_of new_min new_max K := by
  obtain ⟨h1, h2⟩ := tdiv_of_nonpos (new_max - new_min) K hK (by omega)
  unfold slot_length_of
  constructor
  · exact_mod_cast h1
  · exact_mod_cast h2

theorem grid_of_getD (new_min new_max : ℤ) (K i : ℕ) (hi : i ≤ K) :
    (grid_of new_min new_max K).getD i 0 =
      if i = K then (new_max : ℚ)
      else (i : ℚ) * slot_length_of new_min new_max K + (new_min : ℚ) := by
  have h : i < K + 1 := by omega
  simp [grid_of, normalize_hist_bins, List.getD, List.getElem?_map, List.getElem?_range h]

theorem grid_of_inverted (new_min new_max : ℤ) (K i : ℕ) (hi : i < K)
    (h : new_max ≤ new_min) :
    (grid_of new_min new_max K).getD (i + 1) 0 ≤ (grid_of new_min new_max K).getD i 0 := by
  obtain ⟨h1, h2⟩ := slot_length_of_inverted new_min new_max K (by omega) h
  have e1 := grid_of_getD new_min new_max K (i + 1) (by omega)
  have e2 := grid_of_getD new_min new_max K i (by omega)
  rw [if_neg (show i ≠ K by omega)] at e2
  rw [e1, e2]
  by_cases hlast : i + 1 = K
  · rw [if_pos hlast]
    have hK : (K : ℚ) = (i : ℚ) + 1 := by exact_mod_cast hlast.symm
    rw [hK] at h2
    linarith
  · rw [if_neg hlast]
    push_cast
    linarith

theorem overlap_fraction_inverted (target_lower target_upper source_lower source_upper : ℚ)
    (ht : target_upper ≤ target_lower) (hs : source_lower ≤ source_upper) :
    overlap_fraction target_lower target_upper source_lower source_upper = 0 := by
  unfold overlap_fraction
  split_ifs with h0
  · rfl
  · have hpos : 0 < source_upper - source_lower := by
      rcases lt_or_eq_of_le hs with hlt | heq
      · linarith
      · exact absurd (by rw [heq]; ring) h0
    have hnum : min target_upper source_upper - max target_lower source_lower ≤ 0 := by
      have := min_le_left target_upper source_upper
      have := le_max_left target_lower source_lower
      linarith
    have hr : (min target_upper source_upper - max target_lower source_lower) /
        (source_upper - source_lower) ≤ 0 := div_nonpos_of_nonpos_of_nonneg hnum hpos.le
    exact max_eq_left (le_trans (min_le_right _ _) hr)

theorem coverage_of_inverted (slot_min slot_max : ℚ) (s : HistSlot)
    (ht : slot_max ≤ slot_min) (hs : s.lower ≤ s.upper) :
    coverage_of slot_min slot_max s = 0 := by
  unfold coverage_of accumulate_range_in_slot_percentage
  apply overlap_fraction_inverted _ _ _ _ ht
  exact_mod_cast float8_to_int_mono hs

theorem slot_value_of_inverted (slots : List HistSlot) (n : ℕ) (slot_min slot_max : ℚ)
    (ht : slot_max ≤ slot_min) (hs : ∀ s ∈ slots, s.lower ≤ s.upper) :
    slot_value_of slots n slot_min slot_max = 0 := by
  unfold slot_value_of
  apply List.sum_eq_zero
  intro x hx
  rcases List.mem_map.1 hx with ⟨s, hsmem, rfl⟩
  rw [coverage_of_inverted _ _ _ ht (hs s (List.mem_of_mem_take hsmem)), zero_mul]

theorem hist_slots_of_length (hist_bins slots_values : List ℚ) (n : ℕ) :
    (hist_slots_of hist_bins slots_values n).length = n := by
  simp [hist_slots_of]

theorem mem_hist_slots_of {hist_bins slots_values : List ℚ} {n : ℕ} {s : HistSlot}
    (hs : s ∈ hist_slots_of hist_bins slots_values n) :
    ∃ i : ℕ, i < n ∧ s = ⟨hist_bins.getD i 0, hist_bins.getD (i + 1) 0, slots_values.getD i 0⟩ := by
  rcases List.mem_map.1 hs with ⟨i, hi, rfl⟩
  exact ⟨i, List.mem_range.1 hi, rfl⟩

theorem hist_slots_of_ascending (hist_bins slots_values : List ℚ) (n : ℕ)
    (hlen : n + 1 ≤ hist_bins.length) (hsorted : hist_bins.Sorted (· ≤ ·)) :
    ∀ s ∈ hist_slots_of hist_bins slots_values n, s.lower ≤ s.upper := by
  intro s hs
  obtain ⟨i, hi, rfl⟩ := mem_hist_slots_of hs
  have h1 : i < hist_bins.length := by omega
  have h2 : i + 1 < hist_bins.length := by omega
  rw [List.getD_eq_getElem _ _ h1, List.getD_eq_getElem _ _ h2]
  exact List.pairwise_iff_getElem.1 hsorted i (i + 1) h1 h2 (by omega)

theorem slots_values_of_length (hist : CustomHist) (new_min new_max : ℤ) (K : ℕ) :
    (slots_values_of hist new_min new_max K).length = K := by
  simp [slots_values_of]

theorem slots_values_of_inverted (hist : CustomHist) (new_min new_max : ℤ) (K i : ℕ)
    (h : new_max ≤ new_min) (hs : ∀ s ∈ hist.slots, s.lower ≤ s.upper) :
    (slots_values_of hist new_min new_max K).getD i 0 = 0 := by
  by_cases hi : i < K
  · have hget : (slots_values_of hist new_min new_max K)[i]? =
        some (slot_value_of hist.slots K ((grid_of new_min new_max K).getD i 0)
          ((grid_of new_min new_max K).getD (i + 1) 0)) := by
      simp [slots_values_of, List.getElem?_map, List.getElem?_range hi]
    rw [List.getD_eq_getElem?_getD, hget]
    exact slot_value_of_inverted _ _ _ _ (grid_of_inverted _ _ _ _ hi h) hs
  · rw [List.getD_eq_getElem?_getD, List.getElem?_eq_none (by
      rw [slots_values_of_length]; omega)]
    rfl

theorem vectors_dot_product_zero (slots_1 slots_2 : List HistSlot)
    (hz : ∀ s ∈ slots_1, s.value = 0) :
    ∀ n : ℕ, n ≤ slots_1.length → n ≤ slots_2.length →
      vectors_dot_product slots_1 slots_2 n = some 0 := by
  intro n
  unfold vectors_dot_product
  induction n with
  | zero => intro _ _; rfl
  | succ k ih =>
    intro h1 h2
    rw [foldlM_range_succ, ih (by omega) (by omega)]
    have e1 : slots_1[k]? = some slots_1[k] := List.getElem?_eq_getElem (by omega)
    have e2 : slots_2[k]? = some slots_2[k] := List.getElem?_eq_getElem (by omega)
    have e3 : slots_1[k].value = 0 := hz _ (List.getElem_mem _)
    simp [e1, e2, e3]

theorem vectors_dot_product_eq (slots_1 slots_2 : List HistSlot) :
    ∀ n : ℕ, n ≤ slots_1.length → n ≤ slots_2.length →
      vectors_dot_product slots_1 slots_2 n = some (dot_of slots_1 slots_2 n) := by
  intro n
  unfold vectors_dot_product
  induction n with
  | zero => intro _ _; simp [dot_of]
  | succ k ih =>
    intro h1 h2
    rw [foldlM_range_succ, ih (by omega) (by omega)]
    have e1 : slots_1[k]? = some slots_1[k] := List.getElem?_eq_getElem (by omega)
    have e2 : slots_2[k]? = some slots_2[k] := List.getElem?_eq_getElem (by omega)
    have e3 : dot_of slots_1 slots_2 (k + 1) =
        dot_of slots_1 slots_2 k + slots_1[k].value * slots_2[k].value := by
      unfold dot_of
      rw [List.sum_take_succ _ _ (by simp; omega)]
      simp
    simp [e1, e2, e3]

theorem rangeoverlapsjoinsel_score_eq (floor : ℚ) (mem : Memory)
    (b1 v1 b2 v2 : List ℚ) (B : ℕ) (hist1 hist2 : CustomHist)
    (hB : 1 ≤ B) (hb1 : B + 1 ≤ b1.length) (hv1 : v1.length = B)
    (hb2 : B + 1 ≤ b2.length) (hv2 : v2.length = B)
    (h1 : construct_hist mem.hist1 b1 v1 B = some hist1)
    (h2 : construct_hist mem.hist2 b2 v2 B = some hist2) :
    rangeoverlapsjoinsel_score floor mem b1 v1 b2 v2 =
      some (CLAMP_PROBABILITY_float8 floor (float8_div_totals (float8_to_float4
        (dot_of
          (hist_slots_of (grid_of (max hist1.min hist2.min) (min hist1.max hist2.max) B)
            (slots_values_of hist1 (max hist1.min hist2.min) (min hist1.max hist2.max) B) B)
          (hist_slots_of (grid_of (max hist1.min hist2.min) (min hist1.max hist2.max) B)
            (slots_values_of hist2 (max hist1.min hist2.min) (min hist1.max hist2.max) B) B)
          B)) v1.sum v2.sum)) := by
  have e1 := construct_hist_eq mem.hist1 b1 v1 B hb1 (by omega)
  have e2 := construct_hist_eq mem.hist2 b2 v2 B hb2 (by omega)
  rw [h1] at e1
  rw [h2] at e2
  have hsl1 : hist1.slots = hist_slots_of b1 v1 B := by
    rw [Option.some.inj e1]
  have hsl2 : hist2.slots = hist_slots_of b2 v2 B := by
    rw [Option.some.inj e2]
  have hrc1 : hist1.range_count = v1.sum := by
    rw [Option.some.inj e1]; simp [← hv1]
  have hrc2 : hist2.range_count = v2.sum := by
    rw [Option.some.inj e2]; simp [← hv2]
  have n1 := normalize_hist_eq mem.norm_1 hist1 (max hist1.min hist2.min)
    (min hist1.max hist2.max) B hB (by rw [hsl1, hist_slots_of_length])
  rw [construct_hist_eq _ _ _ _ (by rw [grid_of_length])
    (by rw [slots_values_of_length])] at n1
  have n2 := normalize_hist_eq mem.norm_2 hist2 (max hist1.min hist2.min)
    (min hist1.max hist2.max) B hB (by rw [hsl2, hist_slots_of_length])
  rw [construct_hist_eq _ _ _ _ (by rw [grid_of_length])
    (by rw [slots_values_of_length])] at n2
  have hdp := vectors_dot_product_eq
    (hist_slots_of (grid_of (max hist1.min hist2.min) (min hist1.max hist2.max) B)
      (slots_values_of hist1 (max hist1.min hist2.min) (min hist1.max hist2.max) B) B)
    (hist_slots_of (grid_of (max hist1.min hist2.min) (min hist1.max hist2.max) B)
      (slots_values_of hist2 (max hist1.min hist2.min) (min hist1.max hist2.max) B) B)
    B (by rw [hist_slots_of_length]) (by rw [hist_slots_of_length])
  simp only [rangeoverlapsjoinsel_score, hv1, hv2, h1, h2, n1, n2, hdp,
    Option.bind_eq_bind, Option.some_bind, hrc1, hrc2]

theorem rangeoverlapsjoinsel_score_eq_selec (floor : ℚ) (mem : Memory)
    (sslot11 sslot12 sslot21 sslot22 : List ℚ) :
    rangeoverlapsjoinsel_score floor mem sslot11 sslot12 sslot21 sslot22 =
      (rangeoverlapsjoinsel_selec mem sslot11 sslot12 sslot21 sslot22).map
        (CLAMP_PROBABILITY_float8 floor) := by
  cases h1 : construct_hist mem.hist1 sslot11 sslot12 sslot12.length with
  | none =>
    simp [rangeoverlapsjoinsel_score, rangeoverlapsjoinsel_selec, rangeoverlapsjoinsel_norms,
      rangeoverlapsjoinsel_hists, h1]
  | some hist1 =>
    cases h2 : construct_hist mem.hist2 sslot21 sslot22 sslot12.length with
    | none =>
      simp [rangeoverlapsjoinsel_score, rangeoverlapsjoinsel_selec, rangeoverlapsjoinsel_norms,
        rangeoverlapsjoinsel_hists, h1, h2]
    | some hist2 =>
      cases n1 : normalize_hist mem.norm_1 hist1 (max hist1.min hist2.min)
          (min hist1.max hist2.max) sslot12.length with
      | none =>
        simp [rangeoverlapsjoinsel_score, rangeoverlapsjoinsel_selec,
          rangeoverlapsjoinsel_norms, rangeoverlapsjoinsel_hists, h1, h2, n1]
      | some norm_1 =>
        cases n2 : normalize_hist mem.norm_2 hist2 (max hist1.min hist2.min)
            (min hist1.max hist2.max) sslot22.length with
        | none =>
          simp [rangeoverlapsjoinsel_score, rangeoverlapsjoinsel_selec,
            rangeoverlapsjoinsel_norms, rangeoverlapsjoinsel_hists, h1, h2, n1, n2]
        | some norm_2 =>
          cases hd : vectors_dot_product norm_1.slots norm_2.slots sslot12.length with
          | none =>
            simp [rangeoverlapsjoinsel_score, rangeoverlapsjoinsel_selec,
              rangeoverlapsjoinsel_norms, rangeoverlapsjoinsel_hists, h1, h2, n1, n2, hd]
          | some total =>
            simp only [rangeoverlapsjoinsel_score, rangeoverlapsjoinsel_selec,
              rangeoverlapsjoinsel_norms, rangeoverlapsjoinsel_hists, h1, h2, n1, n2, hd,
              Option.bind_eq_bind, Option.some_bind, Option.map_some']

theorem rangeoverlapsjoinsel_slot_fetch_fallback (floor : ℚ) (mem : Memory)
    (t1 t2 : StatsTuple) (right : Option StatsTuple) (b v : List ℚ) :
    (t1.bins_histogram = none ∨ t1.bins_values_histogram = none →
      rangeoverlapsjoinsel floor mem ⟨true, some t1⟩ ⟨true, right⟩ =
        some (.finite (5 / 1000))) ∧
    (t2.bins_histogram = none ∨ t2.bins_values_histogram = none →
      rangeoverlapsjoinsel floor mem ⟨true, some ⟨some b, some v⟩⟩ ⟨true, some t2⟩ =
        some (.finite (5 / 1000))) := by
  constructor
  · intro h
    rcases t1 with ⟨_ | b1, _ | v1⟩ <;> simp_all [rangeoverlapsjoinsel]
  · intro h
    rcases t2 with ⟨_ | b2, _ | v2⟩ <;> simp_all [rangeoverlapsjoinsel]

theorem CLAMP_PROBABILITY_range (floor p : ℚ) (h0 : 0 ≤ floor) (h1 : floor ≤ 1) :
    0 ≤ CLAMP_PROBABILITY floor p ∧ CLAMP_PROBABILITY floor p ≤ 1 := by
  unfold CLAMP_PROBABILITY
  split_ifs with ha hb
  · exact ⟨h0, h1⟩
  · exact ⟨by norm_num, le_refl _⟩
  · exact ⟨by linarith, by linarith⟩

theorem CLAMP_PROBABILITY_float8_cases (floor : ℚ) (p : Float8) :
    CLAMP_PROBABILITY_float8 floor p = .nan ∨
      ∃ q : ℚ, CLAMP_PROBABILITY_float8 floor p = .finite q ∧
        (q = floor ∨ q = 1 ∨ ∃ x : ℚ, q = CLAMP_PROBABILITY floor x) := by
  cases p with
  | finite x => exact Or.inr ⟨_, rfl, Or.inr (Or.inr ⟨x, rfl⟩)⟩
  | pos_inf => exact Or.inr ⟨1, rfl, Or.inr (Or.inl rfl)⟩
  | neg_inf => exact Or.inr ⟨floor, rfl, Or.inl rfl⟩
  | nan => exact Or.inl rfl

theorem rangeoverlapsjoinsel_cases (floor : ℚ) (mem : Memory)
    (vardata1 vardata2 : VariableStatData) (r : Float8)
    (h : rangeoverlapsjoinsel floor mem vardata1 vardata2 = some r) :
    r = .finite (5 / 1000) ∨ ∃ p : Float8, r = CLAMP_PROBABILITY_float8 floor p := by
  have hsel : ∀ w : Float8, some (Float8.finite (5 / 1000)) = some w →
      w = .finite (5 / 1000) ∨ ∃ p : Float8, w = CLAMP_PROBABILITY_float8 floor p := by
    intro w hw
    exact Or.inl (Option.some.inj hw).symm
  have hscore : ∀ s11 s12 s21 s22 : List ℚ,
      rangeoverlapsjoinsel_score floor mem s11 s12 s21 s22 = some r →
      r = .finite (5 / 1000) ∨ ∃ p : Float8, r = CLAMP_PROBABILITY_float8 floor p := by
    intro s11 s12 s21 s22 hs
    rw [rangeoverlapsjoinsel_score_eq_selec] at hs
    rcases Option.map_eq_some'.1 hs with ⟨p, _, hp⟩
    exact Or.inr ⟨p, hp.symm⟩
  rcases vardata1 with ⟨s1, t1⟩
  rcases vardata2 with ⟨s2, t2⟩
  cases s1
  · exact hsel r (by simpa [rangeoverlapsjoinsel] using h)
  · cases s2
    · rcases t1 with _ | ⟨_ | b, _ | w⟩ <;>
        exact hsel r (by simpa [rangeoverlapsjoinsel] using h)
    · rcases t1 with _ | ⟨_ | b1, _ | v1⟩
      · exact hscore [] [] [] [] (by simpa [rangeoverlapsjoinsel] using h)
      · exact hsel r (by simpa [rangeoverlapsjoinsel] using h)
      · exact hsel r (by simpa [rangeoverlapsjoinsel] using h)
      · exact hsel r (by simpa [rangeoverlapsjoinsel] using h)
      · rcases t2 with _ | ⟨_ | b2, _ | v2⟩
        · simp [rangeoverlapsjoinsel] at h
        · exact hsel r (by simpa [rangeoverlapsjoinsel] using h)
        · exact hsel r (by simpa [rangeoverlapsjoinsel] using h)
        · exact hsel r (by simpa [rangeoverlapsjoinsel] using h)
        · exact hscore b1 v1 b2 v2 (by simpa [rangeoverlapsjoinsel] using h)

theorem rangeoverlapsjoinsel_value_range (floor : ℚ) (mem : Memory)
    (vardata1 vardata2 : VariableStatData) (r : Float8) (h0 : 0 ≤ floor) (h1 : floor ≤ 1)
    (h : rangeoverlapsjoinsel floor mem vardata1 vardata2 = some r) :
    r = .nan ∨ ∃ q : ℚ, r = .finite q ∧ 0 ≤ q ∧ q ≤ 1 := by
  rcases rangeoverlapsjoinsel_cases floor mem vardata1 vardata2 r h with hr | ⟨p, hp⟩
  · exact Or.inr ⟨5 / 1000, hr, by norm_num, by norm_num⟩
  · rcases CLAMP_PROBABILITY_float8_cases floor p with hn | ⟨q, hq, hcase⟩
    · exact Or.inl (hp.trans hn)
    · refine Or.inr ⟨q, hp.trans hq, ?_⟩
      rcases hcase with rfl | rfl | ⟨x, rfl⟩
      · exact ⟨h0, h1⟩
      · exact ⟨by norm_num, le_refl _⟩
      · exact CLAMP_PROBABILITY_range floor x h0 h1

theorem overlap_fraction_range (target_lower target_upper source_lower source_upper : ℚ) :
    0 ≤ overlap_fraction target_lower target_upper source_lower source_upper ∧
      overlap_fraction target_lower target_upper source_lower source_upper ≤ 1 := by
  unfold overlap_fraction
  split_ifs
  · exact ⟨le_refl _, by norm_num⟩
  · exact ⟨le_max_left _ _, max_le (by norm_num) (min_le_left _ _)⟩

theorem overlap_fraction_contained (target_lower target_upper source_lower source_upper : ℚ)
    (hs : source_lower < source_upper) (hl : target_lower ≤ source_lower)
    (hu : source_upper ≤ target_upper) :
    overlap_fraction target_lower target_upper source_lower source_upper = 1 := by
  unfold overlap_fraction
  have hne : source_upper - source_lower ≠ 0 := by
    intro h; linarith
  rw [if_neg hne, min_eq_right hu, max_eq_right hl, div_self hne]
  norm_num

theorem overlap_fraction_disjoint (target_lower target_upper source_lower source_upper : ℚ)
    (hs : source_lower ≤ source_upper)
    (hd : source_upper ≤ target_lower ∨ target_upper ≤ source_lower) :
    overlap_fraction target_lower target_upper source_lower source_upper = 0 := by
  unfold overlap_fraction
  split_ifs with h0
  · rfl
  · have hpos : 0 < source_upper - source_lower := by
      rcases lt_or_eq_of_le hs with hlt | heq
      · linarith
      · exact absurd (by rw [heq]; ring) h0
    have hnum : min target_upper source_upper - max target_lower source_lower ≤ 0 := by
      have h1 := min_le_left target_upper source_upper
      have h2 := min_le_right target_upper source_upper
      have h3 := le_max_left target_lower source_lower
      have h4 := le_max_right target_lower source_lower
      rcases hd with hd | hd <;> linarith
    have hr : (min target_upper source_upper - max target_lower source_lower) /
        (source_upper - source_lower) ≤ 0 := div_nonpos_of_nonpos_of_nonneg hnum hpos.le
    exact max_eq_left (le_trans (min_le_right _ _) hr)

theorem foldlM_range_succ_some {σ : Type} (f : σ → ℕ → Option σ) (init s : σ) (n : ℕ)
    (h : (List.range (n + 1)).foldlM f init = some s) :
    ∃ s' : σ, (List.range n).foldlM f init = some s' ∧ f s' n = some s := by
  rw [foldlM_range_succ] at h
  exact Option.bind_eq_some.1 h

theorem construct_hist_loop_some (u : Uninit) (hist_bins slots_values : List ℚ) :
    ∀ (n : ℕ) (st : BuildState),
      (List.range n).foldlM (construct_hist_step u hist_bins slots_values)
          ⟨[], u.hist_min, u.hist_max, 0⟩ = some st →
      n ≤ slots_values.length ∧ st.slots.length = n := by
  intro n
  induction n with
  | zero =>
    intro st h
    have : st = ⟨[], u.hist_min, u.hist_max, 0⟩ := (Option.some.inj h).symm
    subst this
    exact ⟨Nat.zero_le _, rfl⟩
  | succ k ih =>
    intro st h
    obtain ⟨s', hs', hstep⟩ := foldlM_range_succ_some _ _ _ _ h
    obtain ⟨h1, h2⟩ := ih s' hs'
    simp only [construct_hist_step, Option.bind_eq_bind, Option.bind_eq_some] at hstep
    obtain ⟨lo, _, up, _, v, hv, hst⟩ := hstep
    have hk : k < slots_values.length := (List.getElem?_eq_some.1 hv).1
    have hst' := (Option.some.inj hst).symm
    subst hst'
    exact ⟨hk, by simp [h2]⟩

theorem construct_hist_some_length (u : Uninit) (hist_bins slots_values : List ℚ) (n : ℕ)
    (hist : CustomHist) (h : construct_hist u hist_bins slots_values n = some hist) :
    n ≤ slots_values.length ∧ hist.slots.length = n := by
  simp only [construct_hist, Option.bind_eq_bind, Option.bind_eq_some] at h
  obtain ⟨st, hst, hh⟩ := h
  obtain ⟨h1, h2⟩ := construct_hist_loop_some u hist_bins slots_values n st hst
  have := (Option.some.inj hh).symm
  subst this
  exact ⟨h1, h2⟩

theorem normalize_hist_slot_value_some (hist : CustomHist) (slot_min slot_max : ℚ) :
    ∀ (n : ℕ) (r : ℚ),
      (List.range n).foldlM (fun acc j => do
        let s ← hist.slots[j]?
        let start := float8_to_int s.lower
        let end_ := float8_to_int s.upper
        let curr_range : SimpleRange := ⟨start, end_, end_ - start⟩
        let coverage := accumulate_range_in_slot_percentage slot_min slot_max curr_range
        some (acc + coverage * s.value)) (0 : ℚ) = some r →
      n ≤ hist.slots.length := by
  intro n
  induction n with
  | zero => intro _ _; exact Nat.zero_le _
  | succ k ih =>
    intro r h
    obtain ⟨s', _, hstep⟩ := foldlM_range_succ_some _ _ _ _ h
    simp only [Option.bind_eq_bind, Option.bind_eq_some] at hstep
    obtain ⟨s, hs, _⟩ := hstep
    exact (List.getElem?_eq_some.1 hs).1

theorem mapM_some_of_mem {α β : Type} (f : α → Option β) :
    ∀ (l : List α) (r : List β), l.mapM f = some r → ∀ x ∈ l, ∃ y : β, f x = some y := by
  intro l
  induction l with
  | nil => intro _ _ x hx; exact absurd hx (List.not_mem_nil x)
  | cons a t ih =>
    intro r h x hx
    rw [List.mapM_cons] at h
    simp only [Option.pure_def, Option.bind_eq_bind, Option.bind_eq_some] at h
    obtain ⟨y, hy, ys, hys, _⟩ := h
    rcases List.mem_cons.1 hx with rfl | hmem
    · exact ⟨y, hy⟩
    · exact ih ys hys x hmem

theorem normalize_hist_some_length (u : Uninit) (hist : CustomHist) (new_min new_max : ℤ)
    (K : ℕ) (norm : CustomHist) (h : normalize_hist u hist new_min new_max K = some norm) :
    1 ≤ K ∧ K ≤ hist.slots.length ∧ norm.slots.length = K := by
  unfold normalize_hist at h
  by_cases hK : K = 0
  · rw [if_pos hK] at h
    exact absurd h (by simp)
  · rw [if_neg hK] at h
    simp only [Option.bind_eq_bind, Option.bind_eq_some] at h
    obtain ⟨vals, hvals, hc⟩ := h
    obtain ⟨y, hy⟩ := mapM_some_of_mem _ _ _ hvals 0 (List.mem_range.2 (by omega))
    simp only [Option.bind_eq_bind, Option.bind_eq_some] at hy
    obtain ⟨smin, _, smax, _, hval⟩ := hy
    exact ⟨by omega, normalize_hist_slot_value_some hist smin smax K y hval,
      (construct_hist_some_length _ _ _ _ _ hc).2⟩

theorem rangeoverlapsjoinsel_norms_some (mem : Memory) (sslot11 sslot12 sslot21 sslot22 : List ℚ)
    (norm_1 norm_2 : CustomHist)
    (h : rangeoverlapsjoinsel_norms mem sslot11 sslot12 sslot21 sslot22 = some (norm_1, norm_2)) :
    sslot12.length = sslot22.length ∧ norm_1.slots.length = sslot12.length ∧
      norm_2.slots.length = sslot22.length := by
  simp only [rangeoverlapsjoinsel_norms, rangeoverlapsjoinsel_hists, Option.bind_eq_bind,
    Option.bind_eq_some] at h
  obtain ⟨⟨hist1, hist2⟩, ⟨g1, _, g2, hg2, hpair⟩, n1, hn1, n2, hn2, hres⟩ := h
  have hp := Option.some.inj hpair
  have hr := Option.some.inj hres
  simp only [Prod.mk.injEq] at hp hr
  obtain ⟨rfl, rfl⟩ := hp
  obtain ⟨rfl, rfl⟩ := hr
  dsimp only at hn1 hn2
  obtain ⟨c1, c2⟩ := construct_hist_some_length _ _ _ _ _ hg2
  obtain ⟨_, _, d3⟩ := normalize_hist_some_length _ _ _ _ _ _ hn1
  obtain ⟨_, e2, e3⟩ := normalize_hist_some_length _ _ _ _ _ _ hn2
  exact ⟨by omega, d3, e3⟩

theorem float8_to_int_intCast (z : ℤ) : float8_to_int (z : ℚ) = z := by
  unfold float8_to_int
  split_ifs <;> simp

theorem hist_min_of_le (u : Uninit) (hist_bins : List ℚ) :
    ∀ n : ℕ, 1 ≤ n →
      (hist_min_of u hist_bins n ≤ u.slot_lower ∧
        ∀ i : ℕ, i < n → hist_min_of u hist_bins n ≤ hist_bins.getD i 0) ∧
      (hist_min_of u hist_bins n = u.slot_lower ∨
        ∃ i : ℕ, i < n ∧ hist_min_of u hist_bins n = hist_bins.getD i 0) := by
  intro n
  induction n with
  | zero => intro h; omega
  | succ k ih =>
    intro _
    rw [hist_min_of_succ]
    by_cases hk : k = 0
    · subst hk
      simp only [if_true]
      split_ifs with hlt
      · refine ⟨⟨le_of_lt hlt, ?_⟩, Or.inr ⟨0, by omega, rfl⟩⟩
        intro i hi
        have : i = 0 := by omega
        subst this
        exact le_refl _
      · refine ⟨⟨le_refl _, ?_⟩, Or.inl rfl⟩
        intro i hi
        have : i = 0 := by omega
        subst this
        exact not_lt.1 hlt
    · obtain ⟨⟨h1, h2⟩, h3⟩ := ih (by omega)
      simp only [if_neg hk]
      split_ifs with hlt
      · refine ⟨⟨by linarith, ?_⟩, Or.inr ⟨k, by omega, rfl⟩⟩
        intro i hi
        by_cases hik : i = k
        · subst hik; exact le_refl _
        · have := h2 i (by omega)
          linarith
      · refine ⟨⟨h1, ?_⟩, ?_⟩
        · intro i hi
          by_cases hik : i = k
          · subst hik; exact not_lt.1 hlt
          · exact h2 i (by omega)
        · rcases h3 with h3 | ⟨i, hi, h3⟩
          · exact Or.inl h3
          · exact Or.inr ⟨i, by omega, h3⟩

theorem hist_max_of_ge (u : Uninit) (hist_bins : List ℚ) :
    ∀ n : ℕ, 1 ≤ n →
      (u.slot_upper ≤ hist_max_of u hist_bins n ∧
        ∀ i : ℕ, i < n → hist_bins.getD (i + 1) 0 ≤ hist_max_of u hist_bins n) ∧
      (hist_max_of u hist_bins n = u.slot_upper ∨
        ∃ i : ℕ, i < n ∧ hist_max_of u hist_bins n = hist_bins.getD (i + 1) 0) := by
  intro n
  induction n with
  | zero => intro h; omega
  | succ k ih =>
    intro _
    rw [hist_max_of_succ]
    by_cases hk : k = 0
    · subst hk
      simp only [if_true]
      split_ifs with hlt
      · refine ⟨⟨le_of_lt hlt, ?_⟩, Or.inr ⟨0, by omega, rfl⟩⟩
        intro i hi
        have : i = 0 := by omega
        subst this
        exact le_refl _
      · refine ⟨⟨le_refl _, ?_⟩, Or.inl rfl⟩
        intro i hi
        have : i = 0 := by omega
        subst this
        exact not_lt.1 hlt
    · obtain ⟨⟨h1, h2⟩, h3⟩ := ih (by omega)
      simp only [if_neg hk]
      split_ifs with hlt
      · refine ⟨⟨by linarith, ?_⟩, Or.inr ⟨k, by omega, rfl⟩⟩
        intro i hi
        by_cases hik : i = k
        · subst hik; exact le_refl _
        · have := h2 i (by omega)
          linarith
      · refine ⟨⟨h1, ?_⟩, ?_⟩
        · intro i hi
          by_cases hik : i = k
          · subst hik; exact not_lt.1 hlt
          · exact h2 i (by omega)
        · rcases h3 with h3 | ⟨i, hi, h3⟩
          · exact Or.inl h3
          · exact Or.inr ⟨i, by omega, h3⟩

theorem construct_hist_invariant (u : Uninit) (hist_bins slots_values : List ℚ) (B : ℕ)
    (hB : 1 ≤ B) (hb : B + 1 ≤ hist_bins.length) (hv : B ≤ slots_values.length)
    (hasc : hist_bins.getD 0 0 ≤ hist_bins.getD 1 0)
    (hint : ∀ i : ℕ, i ≤ B → ∃ z : ℤ, hist_bins.getD i 0 = (z : ℚ))
    (hnonneg : ∀ i : ℕ, i < B → 0 ≤ slots_values.getD i 0) :
    ∃ hist : CustomHist, construct_hist u hist_bins slots_values B = some hist ∧
      hist_invariant hist := by
  refine ⟨_, construct_hist_eq u hist_bins slots_values B hb hv, ?_, ?_, ?_⟩
  · show 0 ≤ (slots_values.take B).sum
    apply List.sum_nonneg
    intro x hx
    rcases List.getElem_of_mem hx with ⟨i, hi, rfl⟩
    have hi' : i < B := by
      have := hi
      simp only [List.length_take] at this
      omega
    have hi2 : i < slots_values.length := by omega
    have := hnonneg i hi'
    rw [List.getD_eq_getElem _ _ hi2] at this
    simpa using this
  · show float8_to_int (hist_min_of u hist_bins B) ≤ float8_to_int (hist_max_of u hist_bins B)
    apply float8_to_int_mono
    have h1 := ((hist_min_of_le u hist_bins B hB).1.2) 0 (by omega)
    have h2 := ((hist_max_of_ge u hist_bins B hB).1.2) 0 (by omega)
    linarith
  · intro s hs
    obtain ⟨i, hi, rfl⟩ := mem_hist_slots_of hs
    obtain ⟨z1, hz1⟩ := hint i (by omega)
    obtain ⟨z2, hz2⟩ := hint (i + 1) (by omega)
    have h1 := float8_to_int_mono (((hist_min_of_le u hist_bins B hB).1.2) i hi)
    have h2 := float8_to_int_mono (((hist_max_of_ge u hist_bins B hB).1.2) i hi)
    rw [hz1, float8_to_int_intCast] at h1
    rw [hz2, float8_to_int_intCast] at h2
    constructor
    · show ((float8_to_int (hist_min_of u hist_bins B) : ℤ) : ℚ) ≤ hist_bins.getD i 0
      rw [hz1]
      exact_mod_cast h1
    · show hist_bins.getD (i + 1) 0 ≤ ((float8_to_int (hist_max_of u hist_bins B) : ℤ) : ℚ)
      rw [hz2]
      exact_mod_cast h2

theorem tdiv_of_nonneg (d : ℤ) (K : ℕ) (hK : 1 ≤ K) (hd : 0 ≤ d) :
    0 ≤ d.tdiv (K : ℤ) ∧ (K : ℤ) * d.tdiv (K : ℤ) ≤ d := by
  have hKz : (0 : ℤ) ≤ (K : ℤ) := Int.ofNat_nonneg K
  have hK0 : (K : ℤ) ≠ 0 := by omega
  rw [Int.tdiv_eq_ediv hd hKz]
  exact ⟨Int.ediv_nonneg hd hKz, Int.mul_ediv_self_le hK0⟩

theorem slot_length_of_ascending (new_min new_max : ℤ) (K : ℕ) (hK : 1 ≤ K)
    (h : new_min ≤ new_max) :
    0 ≤ slot_length_of new_min new_max K ∧
      (K : ℚ) * slot_length_of new_min new_max K ≤ (new_max : ℚ) - new_min := by
  obtain ⟨h1, h2⟩ := tdiv_of_nonneg (new_max - new_min) K hK (by omega)
  unfold slot_length_of
  constructor
  · exact_mod_cast h1
  · exact_mod_cast h2

theorem grid_of_ascending (new_min new_max : ℤ) (K i : ℕ) (hi : i < K)
    (h : new_min ≤ new_max) :
    (grid_of new_min new_max K).getD i 0 ≤ (grid_of new_min new_max K).getD (i + 1) 0 := by
  obtain ⟨h1, h2⟩ := slot_length_of_ascending new_min new_max K (by omega) h
  have e1 := grid_of_getD new_min new_max K (i + 1) (by omega)
  have e2 := grid_of_getD new_min new_max K i (by omega)
  rw [if_neg (show i ≠ K by omega)] at e2
  rw [e1, e2]
  by_cases hlast : i + 1 = K
  · rw [if_pos hlast]
    have hK : (K : ℚ) = (i : ℚ) + 1 := by exact_mod_cast hlast.symm
    rw [hK] at h2
    linarith
  · rw [if_neg hlast]
    push_cast
    linarith

theorem grid_of_first (new_min new_max : ℤ) (K : ℕ) (hK : 1 ≤ K) :
    (grid_of new_min new_max K).getD 0 0 = (new_min : ℚ) := by
  rw [grid_of_getD _ _ _ _ (Nat.zero_le K), if_neg (show (0 : ℕ) ≠ K by omega)]
  simp

theorem grid_of_last (new_min new_max : ℤ) (K : ℕ) :
    (grid_of new_min new_max K).getD K 0 = (new_max : ℚ) := by
  rw [grid_of_getD _ _ _ _ (le_refl K), if_pos rfl]

theorem grid_of_int (new_min new_max : ℤ) (K i : ℕ) (hi : i ≤ K) :
    ∃ z : ℤ, (grid_of new_min new_max K).getD i 0 = (z : ℚ) := by
  rw [grid_of_getD _ _ _ _ hi]
  by_cases h : i = K
  · exact ⟨new_max, by rw [if_pos h]⟩
  · refine ⟨(i : ℤ) * (new_max - new_min).tdiv (K : ℤ) + new_min, ?_⟩
    rw [if_neg h]
    unfold slot_length_of
    push_cast
    rfl

theorem grid_of_ge_first (new_min new_max : ℤ) (K : ℕ) (h : new_min ≤ new_max) :
    ∀ i : ℕ, i ≤ K →
      (grid_of new_min new_max K).getD 0 0 ≤ (grid_of new_min new_max K).getD i 0 := by
  intro i
  induction i with
  | zero => intro _; exact le_refl _
  | succ k ih =>
    intro hk
    exact le_trans (ih (by omega)) (grid_of_ascending new_min new_max K k (by omega) h)

theorem grid_of_le_last (new_min new_max : ℤ) (K : ℕ) (h : new_min ≤ new_max) :
    ∀ j i : ℕ, i + j = K →
      (grid_of new_min new_max K).getD i 0 ≤ (grid_of new_min new_max K).getD K 0 := by
  intro j
  induction j with
  | zero =>
    intro i hi
    have : i = K := by omega
    subst this
    exact le_refl _
  | succ k ih =>
    intro i hi
    exact le_trans (grid_of_ascending new_min new_max K i (by omega) h) (ih (i + 1) (by omega))

theorem hist_min_of_grid (u : Uninit) (new_min new_max : ℤ) (K : ℕ) (hK : 1 ≤ K)
    (h : new_min ≤ new_max) :
    hist_min_of u (grid_of new_min new_max K) K = min u.slot_lower (new_min : ℚ) := by
  obtain ⟨⟨h1, h2⟩, h3⟩ := hist_min_of_le u (grid_of new_min new_max K) K hK
  have h0 := h2 0 (by omega)
  rw [grid_of_first _ _ _ hK] at h0
  rcases h3 with h3 | ⟨i, hi, h3⟩
  · rw [h3] at h0 ⊢
    exact (min_eq_left h0).symm
  · have hge := grid_of_ge_first new_min new_max K h i (by omega)
    rw [grid_of_first _ _ _ hK, ← h3] at hge
    have heq : hist_min_of u (grid_of new_min new_max K) K = (new_min : ℚ) := le_antisymm h0 hge
    rw [heq] at h1 ⊢
    exact (min_eq_right h1).symm

theorem hist_max_of_grid (u : Uninit) (new_min new_max : ℤ) (K : ℕ) (hK : 1 ≤ K)
    (h : new_min ≤ new_max) :
    hist_max_of u (grid_of new_min new_max K) K = max u.slot_upper (new_max : ℚ) := by
  obtain ⟨⟨h1, h2⟩, h3⟩ := hist_max_of_ge u (grid_of new_min new_max K) K hK
  have h0 := h2 (K - 1) (by omega)
  rw [show K - 1 + 1 = K by omega, grid_of_last] at h0
  rcases h3 with h3 | ⟨i, hi, h3⟩
  · rw [h3] at h0 ⊢
    exact (max_eq_left h0).symm
  · have hle := grid_of_le_last new_min new_max K h (K - (i + 1)) (i + 1) (by omega)
    rw [grid_of_last, ← h3] at hle
    have heq : hist_max_of u (grid_of new_min new_max K) K = (new_max : ℚ) := le_antisymm hle h0
    rw [heq] at h1 ⊢
    exact (max_eq_right h1).symm

theorem coverage_of_nonneg (slot_min slot_max : ℚ) (s : HistSlot) :
    0 ≤ coverage_of slot_min slot_max s := by
  unfold coverage_of accumulate_range_in_slot_percentage
  exact (overlap_fraction_range _ _ _ _).1

theorem slot_value_of_nonneg (slots : List HistSlot) (n : ℕ) (slot_min slot_max : ℚ)
    (hs : ∀ s ∈ slots, 0 ≤ s.value) : 0 ≤ slot_value_of slots n slot_min slot_max := by
  unfold slot_value_of
  apply List.sum_nonneg
  intro x hx
  rcases List.mem_map.1 hx with ⟨s, hsmem, rfl⟩
  exact mul_nonneg (coverage_of_nonneg _ _ _) (hs s (List.mem_of_mem_take hsmem))

theorem slots_values_of_nonneg (hist : CustomHist) (new_min new_max : ℤ) (K i : ℕ)
    (hs : ∀ s ∈ hist.slots, 0 ≤ s.value) :
    0 ≤ (slots_values_of hist new_min new_max K).getD i 0 := by
  by_cases hi : i < K
  · have hget : (slots_values_of hist new_min new_max K)[i]? =
        some (slot_value_of hist.slots K ((grid_of new_min new_max K).getD i 0)
          ((grid_of new_min new_max K).getD (i + 1) 0)) := by
      simp [slots_values_of, List.getElem?_map, List.getElem?_range hi]
    rw [List.getD_eq_getElem?_getD, hget]
    exact slot_value_of_nonneg _ _ _ _ hs
  · rw [List.getD_eq_getElem?_getD, List.getElem?_eq_none (by
      rw [slots_values_of_length]; omega)]
    exact le_refl _

theorem normalize_hist_invariant (u : Uninit) (hist : CustomHist) (new_min new_max : ℤ)
    (K : ℕ) (hK : 1 ≤ K) (hlen : K ≤ hist.slots.length) (h : new_min ≤ new_max)
    (hs : ∀ s ∈ hist.slots, 0 ≤ s.value) :
    ∃ norm : CustomHist, normalize_hist u hist new_min new_max K = some norm ∧
      hist_invariant norm := by
  rw [normalize_hist_eq u hist new_min new_max K hK hlen]
  apply construct_hist_invariant u _ _ K hK (by rw [grid_of_length])
    (by rw [slots_values_of_length])
  · exact grid_of_ascending new_min new_max K 0 (by omega) h
  · intro i hi
    exact grid_of_int new_min new_max K i hi
  · intro i _
    exact slots_values_of_nonneg hist new_min new_max K i hs

theorem normalize_hist_structure (u : Uninit) (hist : CustomHist) (new_min new_max : ℤ)
    (K : ℕ) (hK : 1 ≤ K) (hlen : K ≤ hist.slots.length) (h : new_min ≤ new_max) :
    ∃ norm : CustomHist, normalize_hist u hist new_min new_max K = some norm ∧
      norm.slots.length = K ∧
      (∀ i : ℕ, i < K → ∃ s : HistSlot, norm.slots[i]? = some s ∧ s.lower ≤ s.upper) ∧
      (∀ i : ℕ, i + 1 < K → ∃ s t : HistSlot, norm.slots[i]? = some s ∧
        norm.slots[i + 1]? = some t ∧ s.upper = t.lower) ∧
      (∃ s : HistSlot, norm.slots[0]? = some s ∧ s.lower = (new_min : ℚ)) ∧
      (∃ s : HistSlot, norm.slots[K - 1]? = some s ∧ s.upper = (new_max : ℚ)) ∧
      norm.min = float8_to_int (min u.slot_lower (new_min : ℚ)) ∧
      norm.max = float8_to_int (max u.slot_upper (new_max : ℚ)) := by
  have hget : ∀ i : ℕ, i < K →
      (hist_slots_of (grid_of new_min new_max K) (slots_values_of hist new_min new_max K) K)[i]? =
        some ⟨(grid_of new_min new_max K).getD i 0, (grid_of new_min new_max K).getD (i + 1) 0,
          (slots_values_of hist new_min new_max K).getD i 0⟩ := by
    intro i hi
    simp [hist_slots_of, List.getElem?_map, List.getElem?_range hi]
  rw [normalize_hist_eq u hist new_min new_max K hK hlen,
    construct_hist_eq _ _ _ _ (by rw [grid_of_length]) (by rw [slots_values_of_length])]
  refine ⟨_, rfl, hist_slots_of_length _ _ _, ?_, ?_, ?_, ?_, ?_, ?_⟩
  · intro i hi
    exact ⟨_, hget i hi, grid_of_ascending new_min new_max K i hi h⟩
  · intro i hi
    exact ⟨_, _, hget i (by omega), hget (i + 1) hi, rfl⟩
  · exact ⟨_, hget 0 (by omega), grid_of_first new_min new_max K hK⟩
  · refine ⟨_, hget (K - 1) (by omega), ?_⟩
    show (grid_of new_min new_max K).getD (K - 1 + 1) 0 = (new_max : ℚ)
    rw [show K - 1 + 1 = K by omega, grid_of_last]
  · show float8_to_int (hist_min_of u (grid_of new_min new_max K) K) = _
    rw [hist_min_of_grid u new_min new_max K hK h]
  · show float8_to_int (hist_max_of u (grid_of new_min new_max K) K) = _
    rw [hist_max_of_grid u new_min new_max K hK h]

theorem construct_hist_loop_range_count (u : Uninit) (hist_bins slots_values : List ℚ) :
    ∀ (n : ℕ) (st : BuildState),
      (List.range n).foldlM (construct_hist_step u hist_bins slots_values)
          ⟨[], u.hist_min, u.hist_max, 0⟩ = some st →
      st.range_count = (st.slots.map fun s => s.value).sum := by
  intro n
  induction n with
  | zero =>
    intro st h
    have : st = ⟨[], u.hist_min, u.hist_max, 0⟩ := (Option.some.inj h).symm
    subst this
    rfl
  | succ k ih =>
    intro st h
    obtain ⟨s', hs', hstep⟩ := foldlM_range_succ_some _ _ _ _ h
    have h1 := ih s' hs'
    simp only [construct_hist_step, Option.bind_eq_bind, Option.bind_eq_some] at hstep
    obtain ⟨lo, _, up, _, v, _, hst⟩ := hstep
    have hst' := (Option.some.inj hst).symm
    subst hst'
    simp [h1]

theorem construct_hist_range_count (u : Uninit) (hist_bins slots_values : List ℚ) (n : ℕ)
    (hist : CustomHist) (h : construct_hist u hist_bins slots_values n = some hist) :
    hist.range_count = (hist.slots.map fun s => s.value).sum := by
  simp only [construct_hist, Option.bind_eq_bind, Option.bind_eq_some] at h
  obtain ⟨st, hst, hh⟩ := h
  have h1 := construct_hist_loop_range_count u hist_bins slots_values n st hst
  have := (Option.some.inj hh).symm
  subst this
  exact h1

theorem float8_to_float4_zero : float8_to_float4 0 = .finite 0 := by
  simp [float8_to_float4]

theorem float8_div_totals_finite (x range_count1 range_count2 : ℚ)
    (h : range_count1 * range_count2 ≠ 0) :
    float8_div_totals (.finite x) range_count1 range_count2 =
      .finite (x / (range_count1 * range_count2)) := by
  simp [float8_div_totals, h]

theorem CLAMP_PROBABILITY_zero (floor : ℚ) :
    CLAMP_PROBABILITY floor 0 = max floor 0 ∧
      (CLAMP_PROBABILITY floor 0 = 5 / 1000 ↔ floor = 5 / 1000) := by
  unfold CLAMP_PROBABILITY
  by_cases h : (0 : ℚ) < floor
  · rw [if_pos h, max_eq_left (le_of_lt h)]
    exact ⟨rfl, Iff.rfl⟩
  · rw [if_neg h, if_neg (by norm_num), max_eq_right (not_lt.1 h)]
    refine ⟨rfl, ?_⟩
    constructor
    · intro h0
      norm_num at h0
    · intro h5
      rw [h5] at h
      norm_num at h

/-! ## Properties of the program -/

/-- C1: the histogram built from boundaries `[0, 1/2, 1]` and masses `[1, 1]`
has total mass `2`, `min = 0`, `max = 1`; resampled onto `[0, 1]` with `K = 2`
(its own bin count) its total mass is `1`.  The histogram built from
`[0, 10, 20]` and `[5, 5]` has total mass `10`, `min = 0`, `max = 20`;
resampled onto `[0, 20]` with `K = 1` its total mass is `5`. -/
theorem normalize_hist_mass_not_conserved :
    construct_hist ⟨0, 0, 0, 0⟩ [0, 1 / 2, 1] [1, 1] 2 =
      some ⟨[⟨0, 1 / 2, 1⟩, ⟨1 / 2, 1, 1⟩], 2, 0, 1⟩ ∧
    (normalize_hist ⟨0, 0, 0, 0⟩ ⟨[⟨0, 1 / 2, 1⟩, ⟨1 / 2, 1, 1⟩], 2, 0, 1⟩ 0 1 2).map
        (fun h => h.range_count) = some 1 ∧
    construct_hist ⟨0, 0, 0, 0⟩ [0, 10, 20] [5, 5] 2 =
      some ⟨[⟨0, 10, 5⟩, ⟨10, 20, 5⟩], 10, 0, 20⟩ ∧
    (normalize_hist ⟨0, 0, 0, 0⟩ ⟨[⟨0, 10, 5⟩, ⟨10, 20, 5⟩], 10, 0, 20⟩ 0 20 1).map
        (fun h => h.range_count) = some 5 := by
  decide!

/-- C2: when both security checks pass and the left attribute has no statistics
tuple, `rangeoverlapsjoinsel` returns no value, whatever the right attribute
holds: all four slot counts stay `0` and `normalize_hist` divides the integer
`new_max - new_min` by `slots_count = 0`. -/
theorem rangeoverlapsjoinsel_left_tuple_absent (floor : ℚ) (mem : Memory)
    (right : Option StatsTuple) :
    rangeoverlapsjoinsel floor mem ⟨true, none⟩ ⟨true, right⟩ = none := by
  simp [rangeoverlapsjoinsel, rangeoverlapsjoinsel_score, construct_hist, normalize_hist]

/-- C3: with both security checks passing, `rangeoverlapsjoinsel` returns no
value (so not `0.005`) when the left attribute has both histogram slots and the
right attribute has no statistics tuple (line 279 dereferences the null tuple),
and also when neither attribute has a statistics tuple (division by the slot
count `0`). -/
theorem rangeoverlapsjoinsel_tuple_absent_no_fallback (floor : ℚ) (mem : Memory)
    (b v : List ℚ) :
    rangeoverlapsjoinsel floor mem ⟨true, some ⟨some b, some v⟩⟩ ⟨true, none⟩ = none ∧
    rangeoverlapsjoinsel floor mem ⟨true, none⟩ ⟨true, none⟩ = none := by
  constructor
  · simp [rangeoverlapsjoinsel]
  · simp [rangeoverlapsjoinsel, rangeoverlapsjoinsel_score, construct_hist, normalize_hist]

/-- C4 (counterexample): histogram A over `[0, 10]` and histogram B over
`[20, 30]`, one bin of mass `5` each, have disjoint domains, and
`rangeoverlapsjoinsel` returns `0` when the clamp has floor `0` and `1/1000`
when it has floor `1/1000`; neither is `0.005`. -/
theorem rangeoverlapsjoinsel_disjoint_not_fallback :
    construct_hist ⟨0, 0, 5, 5⟩ [0, 10] [5] 1 = some ⟨[⟨0, 10, 5⟩], 5, 0, 10⟩ ∧
    construct_hist ⟨0, 0, 25, 25⟩ [20, 30] [5] 1 = some ⟨[⟨20, 30, 5⟩], 5, 20, 30⟩ ∧
    max (0 : ℤ) 20 > min (10 : ℤ) 30 ∧
    rangeoverlapsjoinsel 0 ⟨⟨0, 0, 5, 5⟩, ⟨0, 0, 25, 25⟩, ⟨0, 0, 0, 0⟩, ⟨0, 0, 0, 0⟩⟩
      ⟨true, some ⟨some [0, 10], some [5]⟩⟩ ⟨true, some ⟨some [20, 30], some [5]⟩⟩ =
      some (.finite 0) ∧
    rangeoverlapsjoinsel (1 / 1000)
      ⟨⟨0, 0, 5, 5⟩, ⟨0, 0, 25, 25⟩, ⟨0, 0, 0, 0⟩, ⟨0, 0, 0, 0⟩⟩
      ⟨true, some ⟨some [0, 10], some [5]⟩⟩ ⟨true, some ⟨some [20, 30], some [5]⟩⟩ =
      some (.finite (1 / 1000)) ∧
    (0 : ℚ) ≠ 5 / 1000 ∧ (1 / 1000 : ℚ) ≠ 5 / 1000 := by
  decide!

/-- C4 (as amended): when both attributes pass the security check and have both
histogram slots, with the same number `B ≥ 1` of bins on the two sides,
ascending boundaries and non-zero total masses, and the `min`/`max` fields of
the two constructed histograms do not intersect (`max` of the minima above
`min` of the maxima), `rangeoverlapsjoinsel` takes no fallback exit: it
resamples onto the inverted grid, the dot product is `0`, and it returns
`CLAMP_PROBABILITY` of `0`, which is `max floor 0` and equals `0.005` only when
the floor of the clamp is itself `0.005`. -/
theorem rangeoverlapsjoinsel_disjoint_domains (floor : ℚ) (mem : Memory)
    (b1 v1 b2 v2 : List ℚ) (B : ℕ) (hist1 hist2 : CustomHist)
    (hB : 1 ≤ B) (hb1 : b1.length = B + 1) (hv1 : v1.length = B)
    (hb2 : b2.length = B + 1) (hv2 : v2.length = B)
    (hs1 : b1.Sorted (· ≤ ·)) (_hs2 : b2.Sorted (· ≤ ·))
    (hmass : v1.sum * v2.sum ≠ 0)
    (h1 : construct_hist mem.hist1 b1 v1 B = some hist1)
    (h2 : construct_hist mem.hist2 b2 v2 B = some hist2)
    (hdisj : max hist1.min hist2.min > min hist1.max hist2.max) :
    rangeoverlapsjoinsel floor mem ⟨true, some ⟨some b1, some v1⟩⟩
        ⟨true, some ⟨some b2, some v2⟩⟩ = some (.finite (CLAMP_PROBABILITY floor 0)) ∧
      CLAMP_PROBABILITY floor 0 = max floor 0 ∧
      (CLAMP_PROBABILITY floor 0 = 5 / 1000 ↔ floor = 5 / 1000) := by
  refine ⟨?_, CLAMP_PROBABILITY_zero floor⟩
  have e1 := construct_hist_eq mem.hist1 b1 v1 B (by omega) (by omega)
  rw [h1] at e1
  have hsl1 : hist1.slots = hist_slots_of b1 v1 B := by
    rw [Option.some.inj e1]
  have hinv : min hist1.max hist2.max ≤ max hist1.min hist2.min := le_of_lt hdisj
  have hasc1 : ∀ s ∈ hist1.slots, s.lower ≤ s.upper := by
    rw [hsl1]; exact hist_slots_of_ascending b1 v1 B (by omega) hs1
  have hzero := vectors_dot_product_zero
    (hist_slots_of (grid_of (max hist1.min hist2.min) (min hist1.max hist2.max) B)
      (slots_values_of hist1 (max hist1.min hist2.min) (min hist1.max hist2.max) B) B)
    (hist_slots_of (grid_of (max hist1.min hist2.min) (min hist1.max hist2.max) B)
      (slots_values_of hist2 (max hist1.min hist2.min) (min hist1.max hist2.max) B) B)
    (by
      intro s hs
      obtain ⟨i, _, rfl⟩ := mem_hist_slots_of hs
      exact slots_values_of_inverted hist1 _ _ B i hinv hasc1)
    B (by rw [hist_slots_of_length]) (by rw [hist_slots_of_length])
  have hdot := vectors_dot_product_eq
    (hist_slots_of (grid_of (max hist1.min hist2.min) (min hist1.max hist2.max) B)
      (slots_values_of hist1 (max hist1.min hist2.min) (min hist1.max hist2.max) B) B)
    (hist_slots_of (grid_of (max hist1.min hist2.min) (min hist1.max hist2.max) B)
      (slots_values_of hist2 (max hist1.min hist2.min) (min hist1.max hist2.max) B) B)
    B (by rw [hist_slots_of_length]) (by rw [hist_slots_of_length])
  rw [hzero] at hdot
  have hd0 := (Option.some.inj hdot).symm
  have hscore := rangeoverlapsjoinsel_score_eq floor mem b1 v1 b2 v2 B hist1 hist2 hB
    (by omega) hv1 (by omega) hv2 h1 h2
  rw [hd0, float8_to_float4_zero, float8_div_totals_finite _ _ _ hmass, zero_div] at hscore
  simp only [rangeoverlapsjoinsel, hscore]
  rfl

theorem rangeoverlapsjoinsel_disjoint_domains_witness :
    rangeoverlapsjoinsel (1 / 1000)
        ⟨⟨0, 0, 5, 5⟩, ⟨0, 0, 25, 25⟩, ⟨0, 0, 0, 0⟩, ⟨0, 0, 0, 0⟩⟩
        ⟨true, some ⟨some [0, 10], some [5]⟩⟩ ⟨true, some ⟨some [20, 30], some [5]⟩⟩ =
        some (.finite (CLAMP_PROBABILITY (1 / 1000) 0)) ∧
      CLAMP_PROBABILITY (1 / 1000) 0 = max (1 / 1000) 0 ∧
      (CLAMP_PROBABILITY (1 / 1000) 0 = 5 / 1000 ↔ (1 / 1000 : ℚ) = 5 / 1000) :=
  rangeoverlapsjoinsel_disjoint_domains (1 / 1000)
    ⟨⟨0, 0, 5, 5⟩, ⟨0, 0, 25, 25⟩, ⟨0, 0, 0, 0⟩, ⟨0, 0, 0, 0⟩⟩ [0, 10] [5] [20, 30] [5] 1
    ⟨[⟨0, 10, 5⟩], 5, 0, 10⟩ ⟨[⟨20, 30, 5⟩], 5, 20, 30⟩
    (by decide) (by decide) (by decide) (by decide) (by decide) (by norm_num) (by norm_num)
    (by norm_num) (by decide!) (by decide!) (by decide)

/-- C5: when `statistic_proc_security_check` fails for the left attribute, or
passes for the left and fails for the right, `rangeoverlapsjoinsel` returns
exactly `0.005`, whatever statistics either side holds. -/
theorem rangeoverlapsjoinsel_security_check_fallback (floor : ℚ) (mem : Memory)
    (vardata1 vardata2 : VariableStatData)
    (h : vardata1.security_check = false ∨
      (vardata1.security_check = true ∧ vardata2.security_check = false)) :
    rangeoverlapsjoinsel floor mem vardata1 vardata2 = some (.finite (5 / 1000)) := by
  rcases h with h | ⟨h1, h2⟩
  · simp [rangeoverlapsjoinsel, h]
  · rcases vardata1 with ⟨s1, t1⟩
    rcases vardata2 with ⟨s2, t2⟩
    simp only at h1 h2
    subst h1 h2
    rcases t1 with _ | ⟨_ | b, _ | v⟩ <;> simp [rangeoverlapsjoinsel]

theorem rangeoverlapsjoinsel_security_check_fallback_witness :
    rangeoverlapsjoinsel 0 ⟨⟨0, 0, 0, 0⟩, ⟨0, 0, 0, 0⟩, ⟨0, 0, 0, 0⟩, ⟨0, 0, 0, 0⟩⟩
      ⟨true, some ⟨some [0, 10, 20], some [5, 5]⟩⟩
      ⟨false, some ⟨some [0, 10, 20], some [5, 5]⟩⟩ = some (.finite (5 / 1000)) :=
  rangeoverlapsjoinsel_security_check_fallback 0 _ _ _ (Or.inr ⟨rfl, rfl⟩)

/-- C6: both sides have boundaries `[0, 10, 20]` and masses `[5, 5]`.  When the
unwritten `slots[0]` of each side holds `lower = 0`, `upper = 0`, the function
returns `1/2`; when it holds `lower = -100`, `upper = 1000`, the histograms get
`min = -100`, `max = 1000`, the common grid is `[-100, 1000]` and the function
returns `1`. -/
theorem rangeoverlapsjoinsel_scenario_depends_on_memory :
    rangeoverlapsjoinsel 0 ⟨⟨0, 0, 0, 0⟩, ⟨0, 0, 0, 0⟩, ⟨0, 0, 0, 0⟩, ⟨0, 0, 0, 0⟩⟩
      ⟨true, some ⟨some [0, 10, 20], some [5, 5]⟩⟩
      ⟨true, some ⟨some [0, 10, 20], some [5, 5]⟩⟩ = some (.finite (1 / 2)) ∧
    construct_hist ⟨0, 0, -100, 1000⟩ [0, 10, 20] [5, 5] 2 =
      some ⟨[⟨0, 10, 5⟩, ⟨10, 20, 5⟩], 10, -100, 1000⟩ ∧
    rangeoverlapsjoinsel 0
      ⟨⟨0, 0, -100, 1000⟩, ⟨0, 0, -100, 1000⟩, ⟨0, 0, 0, 0⟩, ⟨0, 0, 0, 0⟩⟩
      ⟨true, some ⟨some [0, 10, 20], some [5, 5]⟩⟩
      ⟨true, some ⟨some [0, 10, 20], some [5, 5]⟩⟩ = some (.finite 1) := by
  decide!

/-- C7: resampling the one-bin histogram `[0, 3/2) = 3` onto `[0, 1]` with
`K = 1` gives mass `3`, while the sum of `overlap_fraction * mass` over the
real-valued source bounds is `2`; resampling the two-bin histogram
`[0,10) = 5, [10,20) = 5` onto `[0, 20]` with `K = 1` gives mass `5` (only the
first source bin is scanned), while the sum over both source bins is `10`. -/
theorem normalize_hist_slot_mass_diverges :
    (normalize_hist ⟨0, 0, 0, 0⟩ ⟨[⟨0, 3 / 2, 3⟩], 3, 0, 1⟩ 0 1 1).map
        (fun h => h.slots.map fun s => s.value) = some [3] ∧
    (([⟨0, 3 / 2, 3⟩] : List HistSlot).map
        fun s => overlap_fraction 0 1 s.lower s.upper * s.value).sum = 2 ∧
    (normalize_hist ⟨0, 0, 0, 0⟩ ⟨[⟨0, 10, 5⟩, ⟨10, 20, 5⟩], 10, 0, 20⟩ 0 20 1).map
        (fun h => h.slots.map fun s => s.value) = some [5] ∧
    (([⟨0, 10, 5⟩, ⟨10, 20, 5⟩] : List HistSlot).map
        fun s => overlap_fraction 0 20 s.lower s.upper * s.value).sum = 10 := by
  decide!

/-- C8: on the grid `[0, 3]` with `K = 2` the slots built by `normalize_hist`
are `[0, 1]` and `[1, 3]`: the inner boundary is `0 + 1 * (3 / 2)` with the
integer quotient `3 / 2 = 1`, not `3/2`, and the two slots have widths `1` and
`2`. -/
theorem normalize_hist_grid_integer_division :
    (normalize_hist ⟨0, 0, 0, 0⟩ ⟨[⟨0, 3, 1⟩, ⟨3, 6, 1⟩], 2, 0, 6⟩ 0 3 2).map
        (fun h => h.slots.map fun s => (s.lower, s.upper)) = some [(0, 1), (1, 3)] ∧
    (0 : ℚ) + 1 * ((3 - 0) / 2) = 3 / 2 := by
  decide!

/-- C9: for a boundaries array of length `B + 1` and a masses array of length
`B` with `B ≥ 1`, `construct_hist` returns a histogram with exactly `B` slots,
slot `i` having `lower = boundaries[i]`, `upper = boundaries[i+1]` and
`value = masses[i]`, and `range_count` equal to the sum of all `B` masses,
whatever the memory contents read before being written. -/
theorem construct_hist_slots_and_range_count (u : Uninit) (boundaries masses : List ℚ) (B : ℕ)
    (_hB : 1 ≤ B) (hb : boundaries.length = B + 1) (hm : masses.length = B) :
    ∃ hist : CustomHist, construct_hist u boundaries masses B = some hist ∧
      hist.slots.length = B ∧
      (∀ i : ℕ, i < B → ∃ lo up m : ℚ, boundaries[i]? = some lo ∧
        boundaries[i + 1]? = some up ∧ masses[i]? = some m ∧
        hist.slots[i]? = some ⟨lo, up, m⟩) ∧
      hist.range_count = masses.sum := by
  refine ⟨_, construct_hist_eq u boundaries masses B (by omega) (by omega), ?_, ?_, ?_⟩
  · simp [hist_slots_of]
  · intro i hi
    refine ⟨boundaries.getD i 0, boundaries.getD (i + 1) 0, masses.getD i 0,
      getElem?_eq_some_getD _ _ (by omega), getElem?_eq_some_getD _ _ (by omega),
      getElem?_eq_some_getD _ _ (by omega), ?_⟩
    simp [hist_slots_of, List.getElem?_map, List.getElem?_range hi]
  · simp [← hm]

theorem construct_hist_slots_and_range_count_witness :
    ∃ hist : CustomHist, construct_hist ⟨7, -7, 100, -100⟩ [0, 10, 20] [5, 5] 2 = some hist ∧
      hist.slots.length = 2 ∧
      (∀ i : ℕ, i < 2 → ∃ lo up m : ℚ, ([0, 10, 20] : List ℚ)[i]? = some lo ∧
        ([0, 10, 20] : List ℚ)[i + 1]? = some up ∧ ([5, 5] : List ℚ)[i]? = some m ∧
        hist.slots[i]? = some ⟨lo, up, m⟩) ∧
      hist.range_count = ([5, 5] : List ℚ).sum :=
  construct_hist_slots_and_range_count ⟨7, -7, 100, -100⟩ [0, 10, 20] [5, 5] 2 (by decide)
    (by decide) (by decide)

/-- C10: `construct_hist` on boundaries `[1, 2]` with prior contents `0` and `5`
in the unwritten `slots[0]` returns `min = 0` and `max = 5` (the bin bounds are
`1` and `2`); on boundaries `[1/2, 3/2]` it returns `min = 0` and `max = 1`,
the fractional bounds truncated by the `int` fields. -/
theorem construct_hist_min_max_uninitialised_truncated :
    construct_hist ⟨0, 0, 0, 5⟩ [1, 2] [1] 1 = some ⟨[⟨1, 2, 1⟩], 1, 0, 5⟩ ∧
    construct_hist ⟨0, 0, 1 / 2, 3 / 2⟩ [1 / 2, 3 / 2] [1] 1 =
      some ⟨[⟨1 / 2, 3 / 2, 1⟩], 1, 0, 1⟩ := by
  decide!

/-- C11 (counterexample): the source span `[5, 5]` is fully contained in the
target span `[0, 10]`, and its overlap fraction is `0`, not `1`. -/
theorem accumulate_range_in_slot_percentage_degenerate_contained :
    (0 : ℚ) ≤ ((5 : ℤ) : ℚ) ∧ (((5 : ℤ) : ℚ)) ≤ 10 ∧
    accumulate_range_in_slot_percentage 0 10 ⟨5, 5, 0⟩ = 0 ∧ (0 : ℚ) ≠ 1 := by
  decide!

/-- C11 (as amended): for all target spans `[s_min, s_max]` and source ranges,
`accumulate_range_in_slot_percentage` lies in `[0,1]`; it equals `1` whenever
the source range has positive length and is fully contained in the target
span, and equals `0` whenever the source range (`start ≤ end`) and the target
span are disjoint. -/
theorem accumulate_range_in_slot_percentage_bounds (s_min s_max : ℚ) (range : SimpleRange) :
    (0 ≤ accumulate_range_in_slot_percentage s_min s_max range ∧
      accumulate_range_in_slot_percentage s_min s_max range ≤ 1) ∧
    (range.start < range.end_ → s_min ≤ (range.start : ℚ) → (range.end_ : ℚ) ≤ s_max →
      accumulate_range_in_slot_percentage s_min s_max range = 1) ∧
    (range.start ≤ range.end_ →
      ((range.end_ : ℚ) ≤ s_min ∨ s_max ≤ (range.start : ℚ)) →
      accumulate_range_in_slot_percentage s_min s_max range = 0) := by
  unfold accumulate_range_in_slot_percentage
  refine ⟨overlap_fraction_range _ _ _ _, ?_, ?_⟩
  · intro hs hl hu
    exact overlap_fraction_contained _ _ _ _ (by exact_mod_cast hs) hl hu
  · intro hs hd
    exact overlap_fraction_disjoint _ _ _ _ (by exact_mod_cast hs) hd

theorem accumulate_range_in_slot_percentage_bounds_witness :
    accumulate_range_in_slot_percentage 0 10 ⟨2, 5, 3⟩ = 1 ∧
    accumulate_range_in_slot_percentage 0 10 ⟨20, 30, 10⟩ = 0 :=
  ⟨(accumulate_range_in_slot_percentage_bounds 0 10 ⟨2, 5, 3⟩).2.1 (by decide)
      (by norm_num) (by norm_num),
    (accumulate_range_in_slot_percentage_bounds 0 10 ⟨20, 30, 10⟩).2.2 (by decide)
      (Or.inr (by norm_num))⟩

/-- C13: when the two sides have different numbers of masses (`slots_count1 ≠
slots_count2`), `rangeoverlapsjoinsel` produces no pair of resampled histograms
and no selectivity: side one is resampled with target count `slots_count1`,
side two with target count `slots_count2`, on a `hist2` constructed with
`slots_count1` slots, so one of the arrays is read past its end. -/
theorem rangeoverlapsjoinsel_bin_counts_differ (floor : ℚ) (mem : Memory)
    (sslot11 sslot12 sslot21 sslot22 : List ℚ) (h : sslot12.length ≠ sslot22.length) :
    rangeoverlapsjoinsel_norms mem sslot11 sslot12 sslot21 sslot22 = none ∧
    rangeoverlapsjoinsel_score floor mem sslot11 sslot12 sslot21 sslot22 = none := by
  have hnorms : rangeoverlapsjoinsel_norms mem sslot11 sslot12 sslot21 sslot22 = none := by
    cases hn : rangeoverlapsjoinsel_norms mem sslot11 sslot12 sslot21 sslot22 with
    | none => rfl
    | some p =>
      obtain ⟨n1, n2⟩ := p
      exact absurd (rangeoverlapsjoinsel_norms_some _ _ _ _ _ _ _ hn).1 h
  refine ⟨hnorms, ?_⟩
  rw [rangeoverlapsjoinsel_score_eq_selec]
  cases hh : rangeoverlapsjoinsel_hists mem sslot11 sslot12 sslot21 sslot22 <;>
    simp [rangeoverlapsjoinsel_selec, hh, hnorms]

theorem rangeoverlapsjoinsel_bin_counts_differ_witness :
    rangeoverlapsjoinsel_norms ⟨⟨0, 0, 0, 0⟩, ⟨0, 0, 0, 0⟩, ⟨0, 0, 0, 0⟩, ⟨0, 0, 0, 0⟩⟩
      [0, 10] [5] [0, 10, 20] [5, 5] = none ∧
    rangeoverlapsjoinsel_score 0 ⟨⟨0, 0, 0, 0⟩, ⟨0, 0, 0, 0⟩, ⟨0, 0, 0, 0⟩, ⟨0, 0, 0, 0⟩⟩
      [0, 10] [5] [0, 10, 20] [5, 5] = none :=
  rangeoverlapsjoinsel_bin_counts_differ 0 _ [0, 10] [5] [0, 10, 20] [5, 5] (by decide)

/-- C14: with one bin on the left and the two bins `[0,10) = 5, [10,20) = 7` on
the right, `hist2` is constructed with the left count `1`: it has the single
slot `[0,10) = 5` and total `5`, while the right-side masses sum to `12`.  With
two bins on the left and one on the right, the construction of `hist2` reads
past the end of the right-side arrays and no histogram is produced. -/
theorem rangeoverlapsjoinsel_hist2_uses_left_count :
    rangeoverlapsjoinsel_hists ⟨⟨0, 0, 0, 0⟩, ⟨0, 0, 0, 0⟩, ⟨0, 0, 0, 0⟩, ⟨0, 0, 0, 0⟩⟩
      [0, 10] [5] [0, 10, 20] [5, 7] =
      some (⟨[⟨0, 10, 5⟩], 5, 0, 10⟩, ⟨[⟨0, 10, 5⟩], 5, 0, 10⟩) ∧
    ([5, 7] : List ℚ).sum = 12 ∧
    rangeoverlapsjoinsel_hists ⟨⟨0, 0, 0, 0⟩, ⟨0, 0, 0, 0⟩, ⟨0, 0, 0, 0⟩, ⟨0, 0, 0, 0⟩⟩
      [0, 10, 20] [5, 5] [0, 10] [5] = none := by
  decide!

/-- C15: `vectors_dot_product` is symmetric in its two slot arrays, and so is
the normalized score, the dot product divided by the product of the two total
masses. -/
theorem vectors_dot_product_symmetric (a b : CustomHist) (n : ℕ) :
    vectors_dot_product a.slots b.slots n = vectors_dot_product b.slots a.slots n ∧
    (vectors_dot_product a.slots b.slots n).map (fun dp => dp / (a.range_count * b.range_count)) =
      (vectors_dot_product b.slots a.slots n).map
        (fun dp => dp / (b.range_count * a.range_count)) := by
  have hstep : (fun (total : ℚ) (i : ℕ) => do
        let x ← a.slots[i]?
        let y ← b.slots[i]?
        some (total + x.value * y.value)) =
      (fun (total : ℚ) (i : ℕ) => do
        let x ← b.slots[i]?
        let y ← a.slots[i]?
        some (total + x.value * y.value)) := by
    funext total i
    cases a.slots[i]? <;> cases b.slots[i]? <;> simp [mul_comm]
  have hsym : vectors_dot_product a.slots b.slots n = vectors_dot_product b.slots a.slots n := by
    unfold vectors_dot_product
    rw [hstep]
  refine ⟨hsym, ?_⟩
  rw [hsym, mul_comm a.range_count b.range_count]

/-- C18: on every call `contsel` and `contjoinsel` return `0.001`, `areasel`
and `areajoinsel` return `0.005`, so the containment estimators return a
constant strictly smaller than the area estimators, and each of the four
returns the same value on every call. -/
theorem contsel_lt_areasel (a b : FunctionCallInfo) :
    contsel a < areasel b ∧ contjoinsel a < areajoinsel b ∧
    contsel a < areajoinsel b ∧ contjoinsel a < areasel b ∧
    contsel a = 1 / 1000 ∧ contjoinsel a = 1 / 1000 ∧
    areasel a = 5 / 1000 ∧ areajoinsel a = 5 / 1000 ∧
    contsel a = contsel b ∧ contjoinsel a = contjoinsel b ∧
    areasel a = areasel b ∧ areajoinsel a = areajoinsel b := by
  simp only [contsel, contjoinsel, areasel, areajoinsel]
  norm_num

/-- C19: `construct_hist` on the ascending boundaries `[1/2, 3/2]` with mass `1`
returns `min = 0`, `max = 1`, so the slot's upper bound `3/2` lies above `max`;
on `[-3/2, -1/2]` it returns `min = -1`, `max = 0`, so the slot's lower bound
`-3/2` lies below `min`.  Neither histogram satisfies the invariant. -/
theorem construct_hist_invariant_broken_by_truncation :
    construct_hist ⟨0, 0, 1 / 2, 3 / 2⟩ [1 / 2, 3 / 2] [1] 1 =
      some ⟨[⟨1 / 2, 3 / 2, 1⟩], 1, 0, 1⟩ ∧
    ¬ hist_invariant ⟨[⟨1 / 2, 3 / 2, 1⟩], 1, 0, 1⟩ ∧
    construct_hist ⟨0, 0, -3 / 2, -1 / 2⟩ [-3 / 2, -1 / 2] [1] 1 =
      some ⟨[⟨-3 / 2, -1 / 2, 1⟩], 1, -1, 0⟩ ∧
    ¬ hist_invariant ⟨[⟨-3 / 2, -1 / 2, 1⟩], 1, -1, 0⟩ := by
  decide!

/-- C20: resampling the one-slot histogram `[0, 20) = 10` onto the grid
`[5, 20]` with `K = 1`, with zeros in the unwritten `slots[0]`, returns the
slot `[5, 20]` with `min = 0` (not `new_min = 5`); with `-100` and `1000` in the
unwritten `slots[0]`, resampling onto `[0, 20]` returns `min = -100`,
`max = 1000`; and resampling the one-slot histogram with `K = 2` reads past the
end of its slot array and returns nothing. -/
theorem normalize_hist_min_max_fields_diverge :
    normalize_hist ⟨0, 0, 0, 0⟩ ⟨[⟨0, 20, 10⟩], 10, 0, 20⟩ 5 20 1 =
      some ⟨[⟨5, 20, 15 / 2⟩], 15 / 2, 0, 20⟩ ∧
    normalize_hist ⟨0, 0, -100, 1000⟩ ⟨[⟨0, 20, 10⟩], 10, 0, 20⟩ 0 20 1 =
      some ⟨[⟨0, 20, 10⟩], 10, -100, 1000⟩ ∧
    normalize_hist ⟨0, 0, 0, 0⟩ ⟨[⟨0, 20, 10⟩], 10, 0, 20⟩ 0 20 2 = none := by
  decide!

end GeoSelfuncs
